import Mathlib

/-!
# A verification development for the mini shell (`src/shell.cpp`)

The shell's process execution engine (`executepipes`, `executecommand`) and the
dispatch part of `main` are embedded as Lean functions.  System calls are
modelled by explicit state passing: every process carries its descriptor table
and the ordered list of the system calls it has issued; the answers of the
operating system that the program cannot predict (does `pipe` succeed, does
`fork` succeed, does `open` succeed, does `execvp` succeed) come from an
`Oracle`.  A child is run from its `fork` to the call that ends its branch
(`execvp`, or `exit` after a failure).  The trace records a wait as a call
only, since the source discards what the call returns; what the waits of the
shell observe is obtained by running the trace of the shell against its
children (`replay`), in which the children terminate and the handler
`sigchld_handler` runs whenever a schedule says so.
-/

namespace MiniShell

/-! ## The operating-system model -/

/-- How `open` was asked to open a path: `O_RDONLY`, `O_WRONLY|O_CREAT|O_TRUNC`
or `O_WRONLY|O_CREAT|O_APPEND`. -/
inductive OpenMode
  | readOnly
  | truncate
  | append
  deriving DecidableEq

/-- What an open descriptor refers to. -/
inductive File
  | terminal
  | pipeRead (k : Nat)
  | pipeWrite (k : Nat)
  | path (name : String) (mode : OpenMode)
  deriving DecidableEq

/-- System calls and stream writes, as issued by one process. -/
inductive Sys
  | pipe (k : Nat) (res : Option (Nat × Nat))
  | fork (res : Option Nat)
  | dup2 (oldfd newfd : Nat)
  | close (fd : Nat)
  | openFile (name : String) (mode : OpenMode) (res : Option Nat)
  | execvp (file : Option String) (argv : List String)
  | exit (status : Nat)
  | wait
  | waitpid (pid : Nat)
  | perror (msg : String)
  | cout (msg : String)
  | cerr (msg : String)
  deriving DecidableEq

/-- The descriptor table of a process: descriptor number and what it refers to. -/
abbrev FdTable := List (Nat × File)

/-- The descriptor numbers that are open. -/
def fdKeys (t : FdTable) : List Nat := t.map Prod.fst

/-- What descriptor `fd` refers to, `none` when it is closed. -/
def fdLookup (t : FdTable) (fd : Nat) : Option File :=
  match t with
  | [] => none
  | e :: rest => if e.1 = fd then some e.2 else fdLookup rest fd

/-- The table after `close(fd)`. -/
def fdClose (t : FdTable) (fd : Nat) : FdTable :=
  t.filter (fun e => decide (e.1 ≠ fd))

/-- Search for the first closed descriptor number at or above `n`. -/
def firstFree (t : FdTable) : Nat → Nat → Nat
  | 0, n => n
  | fuel + 1, n => if fdLookup t n = none then n else firstFree t fuel (n + 1)

/-- The lowest descriptor number that is not open: what `pipe` and `open`
hand out. -/
def lowestFree (t : FdTable) : Nat := firstFree t t.length 0

/-- The answers of the operating system during one call of an executor.
`pipeOk k`: the `k`-th call of `pipe` succeeds.  `forkPid i`: the `i`-th call
of `fork` fails (`none`) or creates a child whose process id, as returned to
the parent, is `n + 1` (`some n`).  `openOk`: `open` of that path in that mode
succeeds.  `execOk`: `execvp` of that argument vector succeeds. -/
structure Oracle where
  pipeOk : Nat → Bool
  forkPid : Nat → Option Nat
  openOk : String → OpenMode → Bool
  execOk : List String → Bool

/-- One process: its descriptor table and the calls it has issued, oldest first. -/
structure Proc where
  fdt : FdTable
  trace : List Sys
  deriving DecidableEq

/-- The parent (the shell itself) and the child processes created so far, in
creation order, each run up to the point where it is replaced or exits. -/
structure World where
  parent : Proc
  children : List Proc
  deriving DecidableEq

/-- Record one call in the trace of a process. -/
def Proc.emit (p : Proc) (e : Sys) : Proc :=
  { p with trace := p.trace ++ [e] }

/-- The call `pipe(...)`: on success the two lowest closed descriptors become
the read end and the write end of a new pipe. -/
def sysPipe (ok : Bool) (k : Nat) (p : Proc) : Option (Nat × Nat) × Proc :=
  if ok then
    let r := lowestFree p.fdt
    let t1 : FdTable := (r, File.pipeRead k) :: p.fdt
    let w := lowestFree t1
    (some (r, w), { fdt := (w, File.pipeWrite k) :: t1,
                    trace := p.trace ++ [Sys.pipe k (some (r, w))] })
  else
    (none, p.emit (Sys.pipe k none))

/-- The table after `dup2(oldfd, newfd)`. -/
def fdDup2 (t : FdTable) (oldfd newfd : Nat) : FdTable :=
  match fdLookup t oldfd with
  | none => t
  | some f => if oldfd = newfd then t else (newfd, f) :: fdClose t newfd

/-- The call `dup2(oldfd, newfd)`. -/
def sysDup2 (oldfd newfd : Nat) (p : Proc) : Proc :=
  { fdt := fdDup2 p.fdt oldfd newfd, trace := p.trace ++ [Sys.dup2 oldfd newfd] }

/-- The call `close(fd)`. -/
def sysClose (fd : Nat) (p : Proc) : Proc :=
  { fdt := fdClose p.fdt fd, trace := p.trace ++ [Sys.close fd] }

/-- The call `open(name, mode)`: on success the lowest closed descriptor. -/
def sysOpen (ok : Bool) (name : String) (mode : OpenMode) (p : Proc) : Option Nat × Proc :=
  if ok then
    let fd := lowestFree p.fdt
    (some fd, { fdt := (fd, File.path name mode) :: p.fdt,
                trace := p.trace ++ [Sys.openFile name mode (some fd)] })
  else
    (none, p.emit (Sys.openFile name mode none))

/-- Descriptor number of standard input. -/
def STDIN_FILENO : Nat := 0

/-- Descriptor number of standard output. -/
def STDOUT_FILENO : Nat := 1

/-- The value of `EXIT_FAILURE`. -/
def EXIT_FAILURE : Nat := 1

/-! ## `executepipes` -/

/-- What can go wrong with the local array `pipefds`: an index outside the
array, or a read of a slot that was never written. -/
inductive Fault
  | outOfBounds
  | uninitialised
  deriving DecidableEq

/-- Write `pipefds[j] = v`. -/
def writeSlot (a : List (Option Nat)) (j v : Nat) : Except Fault (List (Option Nat)) :=
  if j < a.length then Except.ok (a.set j (some v)) else Except.error Fault.outOfBounds

/-- Read `pipefds[j]`. -/
def readSlot (a : List (Option Nat)) (j : Nat) : Except Fault Nat :=
  match a[j]? with
  | none => Except.error Fault.outOfBounds
  | some none => Except.error Fault.uninitialised
  | some (some v) => Except.ok v

/-- The loop `for (i = 0; i < numCommands - 1; i++) if (pipe(pipefds + i*2) == -1)
{ perror("pipe"); return; }`, from index `i` with `n` iterations to go.  The
flag is `false` when the function returned from inside the loop. -/
def pipeLoop (os : Oracle) : Nat → Nat → List (Option Nat) → Proc →
    Except Fault (Bool × List (Option Nat) × Proc)
  | 0, _, pipefds, p => Except.ok (true, pipefds, p)
  | n + 1, i, pipefds, p =>
    match sysPipe (os.pipeOk i) i p with
    | (none, p1) => Except.ok (false, pipefds, p1.emit (Sys.perror "pipe"))
    | (some (r, w), p1) =>
      match writeSlot pipefds (i * 2) r with
      | Except.error e => Except.error e
      | Except.ok a1 =>
        match writeSlot a1 (i * 2 + 1) w with
        | Except.error e => Except.error e
        | Except.ok a2 => pipeLoop os n (i + 1) a2 p1

/-- The loop `for (j = 0; j < 2*(numCommands-1); j++) close(pipefds[j]);`, from
index `j` with `n` iterations to go. -/
def closeLoop (pipefds : List (Option Nat)) : Nat → Nat → Proc → Except Fault Proc
  | 0, _, p => Except.ok p
  | n + 1, j, p =>
    match readSlot pipefds j with
    | Except.error e => Except.error e
    | Except.ok fd => closeLoop pipefds n (j + 1) (sysClose fd p)

/-- The call `execvp(args[0], args.data())` and, when it returns, the two
statements after it (`perror(msg); exit(EXIT_FAILURE);`). -/
def sysExecvp (os : Oracle) (msg : String) (argv : List String) (p : Proc) : Proc :=
  let p1 := p.emit (Sys.execvp argv.head? argv)
  if os.execOk argv then p1
  else (p1.emit (Sys.perror msg)).emit (Sys.exit EXIT_FAILURE)

/-- The branch `pid == 0` of the loop body of `executepipes`: child `i`, which
starts as a copy `c` of the parent. -/
def pipeChild (os : Oracle) (commands : List (List String)) (numCommands i : Nat)
    (pipefds : List (Option Nat)) (c : Proc) : Except Fault Proc :=
  let afterIn : Except Fault Proc :=
    if i ≠ 0 then
      match readSlot pipefds ((i - 1) * 2) with
      | Except.error e => Except.error e
      | Except.ok fd => Except.ok (sysDup2 fd STDIN_FILENO c)
    else Except.ok c
  match afterIn with
  | Except.error e => Except.error e
  | Except.ok c1 =>
    let afterOut : Except Fault Proc :=
      if i ≠ numCommands - 1 then
        match readSlot pipefds (i * 2 + 1) with
        | Except.error e => Except.error e
        | Except.ok fd => Except.ok (sysDup2 fd STDOUT_FILENO c1)
      else Except.ok c1
    match afterOut with
    | Except.error e => Except.error e
    | Except.ok c2 =>
      match closeLoop pipefds (2 * (numCommands - 1)) 0 c2 with
      | Except.error e => Except.error e
      | Except.ok c3 =>
        match commands[i]? with
        | none => Except.error Fault.outOfBounds
        | some args => Except.ok (sysExecvp os "execvp" args c3)

/-- The loop `for (i = 0; i < numCommands; i++) { pid = fork(); ... }`, from
index `i` with `n` iterations to go.  The flag is `false` when the function
returned from inside the loop (`fork` failed). -/
def forkLoop (os : Oracle) (commands : List (List String)) (numCommands : Nat)
    (pipefds : List (Option Nat)) : Nat → Nat → World → Except Fault (Bool × World)
  | 0, _, w => Except.ok (true, w)
  | n + 1, i, w =>
    match os.forkPid i with
    | none =>
      Except.ok (false, { w with parent := (w.parent.emit (Sys.fork none)).emit (Sys.perror "fork") })
    | some pid =>
      match pipeChild os commands numCommands i pipefds { fdt := w.parent.fdt, trace := [] } with
      | Except.error e => Except.error e
      | Except.ok c =>
        forkLoop os commands numCommands pipefds n (i + 1)
          { parent := w.parent.emit (Sys.fork (some (pid + 1))), children := w.children ++ [c] }

/-- The loop `for (i = 0; i < numCommands; i++) wait(nullptr);`. -/
def waitLoop : Nat → Proc → Proc
  | 0, p => p
  | n + 1, p => waitLoop n (p.emit Sys.wait)

/-- The function `executepipes(commands, background)`, run by the process `p`.
The source keeps `numCommands` and the loop counters in `int`; they are natural
numbers here, which is the same as long as `2 * (numCommands - 1)` is below
`2^31`. -/
def executepipes (os : Oracle) (commands : List (List String)) (background : Bool)
    (p : Proc) : Except Fault World :=
  let numCommands := commands.length
  if numCommands = 0 then Except.ok { parent := p, children := [] }
  else
    let pipefds : List (Option Nat) := List.replicate (2 * (numCommands - 1)) none
    match pipeLoop os (numCommands - 1) 0 pipefds p with
    | Except.error e => Except.error e
    | Except.ok (false, _, p1) => Except.ok { parent := p1, children := [] }
    | Except.ok (true, fds, p1) =>
      match forkLoop os commands numCommands fds numCommands 0 { parent := p1, children := [] } with
      | Except.error e => Except.error e
      | Except.ok (false, w) => Except.ok w
      | Except.ok (true, w) =>
        match closeLoop fds (2 * (numCommands - 1)) 0 w.parent with
        | Except.error e => Except.error e
        | Except.ok p2 =>
          if background then
            Except.ok { w with parent := p2.emit (Sys.cout "[Background pipeline started]\n") }
          else
            Except.ok { w with parent := waitLoop numCommands p2 }

/-! ## `executecommand` -/

/-- The local variables `in_fd`, `out_fd` (`none` is `-1`) and `filtered_args`
of the child of `executecommand`. -/
structure Redir where
  in_fd : Option Nat
  out_fd : Option Nat
  filtered_args : List String
  deriving DecidableEq

/-- How the scan of the arguments ends: the child has called `_exit`, or the
loop has run to its end. -/
inductive Scan
  | exited (p : Proc)
  | done (p : Proc) (r : Redir)
  deriving DecidableEq

/-- The two statements `perror(msg)` or `std::cerr << msg`, then
`_exit(EXIT_FAILURE)`. -/
def failWith (report : Sys) (p : Proc) : Scan :=
  Scan.exited ((p.emit report).emit (Sys.exit EXIT_FAILURE))

/-- The loop `for (i = 0; i < args.size(); ++i)` of the child of
`executecommand`, on the arguments from index `i` on: `a` is `args[i]`, and
`i + 1 < args.size()` holds exactly when the rest is `f :: more`, with `f`
being `args[i + 1]`. -/
def scanArgs (os : Oracle) : List String → Proc → Redir → Scan
  | [], p, r => Scan.done p r
  | a :: rest, p, r =>
    match rest with
    | [] =>
      -- here `i + 1 >= args.size()`
      if a = ">" then failWith (Sys.cerr "No output file\n") p
      else if a = ">>" then failWith (Sys.cerr "No output file\n") p
      else scanArgs os [] p { r with filtered_args := r.filtered_args ++ [a] }
    | f :: more =>
      if a = "<" then
        match sysOpen (os.openOk f OpenMode.readOnly) f OpenMode.readOnly p with
        | (none, p1) => failWith (Sys.perror "open input failed") p1
        | (some fd, p1) => scanArgs os more p1 { r with in_fd := some fd }
      else if a = ">" then
        match sysOpen (os.openOk f OpenMode.truncate) f OpenMode.truncate p with
        | (none, p1) => failWith (Sys.perror "open output failed") p1
        | (some fd, p1) => scanArgs os more p1 { r with out_fd := some fd }
      else if a = ">>" then
        match sysOpen (os.openOk f OpenMode.append) f OpenMode.append p with
        | (none, p1) => failWith (Sys.perror "open output failed") p1
        | (some fd, p1) => scanArgs os more p1 { r with out_fd := some fd }
      else scanArgs os (f :: more) p { r with filtered_args := r.filtered_args ++ [a] }

/-- The statements `if (fd != -1) { dup2(fd, target); close(fd); }`. -/
def applyRedirect (fd : Option Nat) (target : Nat) (p : Proc) : Proc :=
  match fd with
  | none => p
  | some n => sysClose n (sysDup2 n target p)

/-- The branch `pid == 0` of `executecommand`: the child, which starts as a
copy `c` of the parent. -/
def commandChild (os : Oracle) (args : List String) (c : Proc) : Proc :=
  match scanArgs os args c { in_fd := none, out_fd := none, filtered_args := [] } with
  | Scan.exited p => p
  | Scan.done p r =>
    sysExecvp os "execvp failed" r.filtered_args
      (applyRedirect r.out_fd STDOUT_FILENO (applyRedirect r.in_fd STDIN_FILENO p))

/-- The test `args.back() == "&"` of `executecommand`. -/
def endsWithAmp (args : List String) : Bool :=
  decide (args.getLast? = some "&")

/-- The arguments of `executecommand` after the background test:
`args.pop_back()` when the last one is `&`. -/
def stripAmp (args : List String) : List String :=
  if endsWithAmp args then args.dropLast else args

/-- The function `executecommand(args)`, run by the process `p`. -/
def executecommand (os : Oracle) (args : List String) (p : Proc) : World :=
  if args = [] then { parent := p, children := [] }
  else
    let background := endsWithAmp args
    let args1 := stripAmp args
    match os.forkPid 0 with
    | none =>
      { parent := (p.emit (Sys.fork none)).emit (Sys.perror "fork failed"), children := [] }
    | some pid =>
      let child := commandChild os args1 { fdt := p.fdt, trace := [] }
      let p1 := p.emit (Sys.fork (some (pid + 1)))
      if background then
        { parent := p1.emit (Sys.cout ("[Background job started] PID: " ++ toString (pid + 1) ++ "\n")),
          children := [child] }
      else
        { parent := p1.emit (Sys.waitpid (pid + 1)), children := [child] }

/-! ## The read loop of `main` -/

/-- Whitespace as `stream >> token` sees it. -/
def isSpace (c : Char) : Bool :=
  c = ' ' || c = '\t' || c = '\n' || c = '\x0b' || c = '\x0c' || c = '\r'

/-- The loop `while (stream >> token) tokens.push_back(token)` on the
characters still unread, `cur` being the token read so far. -/
def tokenize : List Char → List Char → List String
  | [], cur => if cur = [] then [] else [String.mk cur]
  | c :: cs, cur =>
    if isSpace c then
      if cur = [] then tokenize cs [] else String.mk cur :: tokenize cs []
    else tokenize cs (cur ++ [c])

/-- The function `parseInput(input)`. -/
def parseInput (input : String) : List String := tokenize input.data []

/-- The successive results of `std::getline(ss, segment, (the bar))` on the
characters still unread, `cur` being the segment read so far. -/
def splitSegments : List Char → List Char → List (List Char)
  | [], cur => if cur = [] then [] else [cur]
  | c :: cs, cur => if c = '|' then cur :: splitSegments cs [] else splitSegments cs (cur ++ [c])

/-- The characters of the set `" \t"`. -/
def isBlank (c : Char) : Bool := c = ' ' || c = '\t'

/-- The call `segment.find_first_not_of(" \t")`, `none` being `npos`. -/
def findFirstNotOf (s : List Char) : Option Nat :=
  s.findIdx? (fun c => !isBlank c)

/-- The call `segment.find_last_not_of(" \t")`, `none` being `npos`. -/
def findLastNotOf (s : List Char) : Option Nat :=
  (s.reverse.findIdx? (fun c => !isBlank c)).map (fun k => s.length - 1 - k)

/-- The statements that cut the blanks off both ends of a segment. -/
def trimSegment (s : List Char) : List Char :=
  match findFirstNotOf s, findLastNotOf s with
  | some start, some last => (s.drop start).take (last - start + 1)
  | _, _ => s

/-- The loop `while (std::getline(ss, segment, (the bar)))` of `main`, on the
segments still to come, with the current values of `commands` and
`background`. -/
def segmentLoop : List (List Char) → List (List String) → Bool → List (List String) × Bool
  | [], commands, background => (commands, background)
  | segment :: rest, commands, background =>
    let cmdTokens := parseInput (String.mk (trimSegment segment))
    if cmdTokens ≠ [] then
      let background1 := if endsWithAmp cmdTokens then true else background
      let cmdTokens1 := stripAmp cmdTokens
      if cmdTokens1 ≠ [] then segmentLoop rest (commands ++ [cmdTokens1]) background1
      else segmentLoop rest commands background1
    else segmentLoop rest commands background

/-- What one iteration of the read loop does with the line it has read. -/
inductive Dispatch
  | skip
  | quit
  | changeDir (tokens : List String)
  | makeDir (tokens : List String)
  | pipes (commands : List (List String)) (background : Bool)
  | command (tokens : List String)
  deriving DecidableEq

/-- The body of the loop `while (true)` of `main`, up to the call of an
executor. -/
def dispatch (input : String) : Dispatch :=
  if input.data = [] then Dispatch.skip
  else
    let tokens := parseInput input
    match tokens with
    | [] => Dispatch.skip
    | first :: _ =>
      if first = "exit" then Dispatch.quit
      else if first = "cd" then Dispatch.changeDir tokens
      else if first = "mkdir" then Dispatch.makeDir tokens
      else if '|' ∈ input.data then
        match segmentLoop (splitSegments input.data []) [] false with
        | (commands, background) =>
          if commands ≠ [] then Dispatch.pipes commands background else Dispatch.skip
      else Dispatch.command tokens

/-- What the read loop does to the world for one line: the executor it calls,
run by the process `p`. -/
def runLine (os : Oracle) (input : String) (p : Proc) : Except Fault World :=
  match dispatch input with
  | Dispatch.pipes commands background => executepipes os commands background p
  | Dispatch.command tokens => Except.ok (executecommand os tokens p)
  | _ => Except.ok { parent := p, children := [] }

/-! ## Closed forms used in the proofs -/

/-- The descriptor pairs that `n` successful calls of `pipe` hand out, the
first call being number `k`, starting from the table `t`. -/
def pipePairs : Nat → Nat → FdTable → List (Nat × Nat)
  | 0, _, _ => []
  | n + 1, k, t =>
    let r := lowestFree t
    let t1 : FdTable := (r, File.pipeRead k) :: t
    let w := lowestFree t1
    (r, w) :: pipePairs n (k + 1) ((w, File.pipeWrite k) :: t1)

/-- The table after `n` successful calls of `pipe`. -/
def pipeTable : Nat → Nat → FdTable → FdTable
  | 0, _, t => t
  | n + 1, k, t =>
    let r := lowestFree t
    let t1 : FdTable := (r, File.pipeRead k) :: t
    let w := lowestFree t1
    pipeTable n (k + 1) ((w, File.pipeWrite k) :: t1)

/-- The content of `pipefds` that a list of descriptor pairs gives. -/
def pairFds : List (Nat × Nat) → List Nat
  | [] => []
  | pr :: rest => pr.1 :: pr.2 :: pairFds rest

/-- The `pipe` calls in the trace, numbered from `k`. -/
def pipeEvents : Nat → List (Nat × Nat) → List Sys
  | _, [] => []
  | k, pr :: rest => Sys.pipe k (some pr) :: pipeEvents (k + 1) rest

/-- Close a list of descriptors one after the other. -/
def closeAll (fds : List Nat) (p : Proc) : Proc :=
  fds.foldl (fun q fd => sysClose fd q) p

/-- The `fork` calls number `i` to `i + n - 1` in the trace of the parent. -/
def forkEvents (os : Oracle) : Nat → Nat → List Sys
  | 0, _ => []
  | n + 1, i => Sys.fork ((os.forkPid i).map (fun pid => pid + 1)) :: forkEvents os n (i + 1)

/-- Child `i` of a pipeline of `numCommands` commands at the end of its branch,
when the pipes of the pipeline have the descriptor pairs `pairs` and the child
started with the table `t`. -/
def pipeChildProc (os : Oracle) (args : List String) (numCommands i : Nat)
    (pairs : List (Nat × Nat)) (t : FdTable) : Proc :=
  let c0 : Proc := { fdt := t, trace := [] }
  let c1 := if i ≠ 0 then sysDup2 (pairs.getD (i - 1) (0, 0)).1 STDIN_FILENO c0 else c0
  let c2 := if i ≠ numCommands - 1 then sysDup2 (pairs.getD i (0, 0)).2 STDOUT_FILENO c1 else c1
  sysExecvp os "execvp" args (closeAll (pairFds pairs) c2)

/-- What the parent does after it has closed the pipes: the report of a
background pipeline, or one `wait` for each command. -/
def waitEvents (background : Bool) (numCommands : Nat) : List Sys :=
  if background then [Sys.cout "[Background pipeline started]\n"]
  else List.replicate numCommands Sys.wait

/-- The calls that a run of `executepipes` without failure of `pipe` or `fork`
adds to the trace of the parent. -/
def pipelineTrace (os : Oracle) (numCommands : Nat) (background : Bool) (t : FdTable) : List Sys :=
  pipeEvents 0 (pipePairs (numCommands - 1) 0 t) ++ forkEvents os numCommands 0 ++
    (pairFds (pipePairs (numCommands - 1) 0 t)).map Sys.close ++ waitEvents background numCommands

/-- The children of a run of `executepipes` without failure of `pipe` or `fork`. -/
def pipelineChildren (os : Oracle) (commands : List (List String)) (t : FdTable) : List Proc :=
  (List.range' 0 commands.length).map (fun j =>
    pipeChildProc os (commands.getD j []) commands.length j
      (pipePairs (commands.length - 1) 0 t) (pipeTable (commands.length - 1) 0 t))

/-- The calls that `sysExecvp` adds to a trace. -/
def execEvents (os : Oracle) (msg : String) (argv : List String) : List Sys :=
  Sys.execvp argv.head? argv ::
    (if os.execOk argv then [] else [Sys.perror msg, Sys.exit EXIT_FAILURE])

/-- The `dup2` calls of child `i` of a pipeline of `numCommands` commands. -/
def dupEvents (numCommands i : Nat) (pairs : List (Nat × Nat)) : List Sys :=
  (if i ≠ 0 then [Sys.dup2 (pairs.getD (i - 1) (0, 0)).1 STDIN_FILENO] else []) ++
    (if i ≠ numCommands - 1 then [Sys.dup2 (pairs.getD i (0, 0)).2 STDOUT_FILENO] else [])

/-! ## Concrete inputs -/

/-- An operating system in which every `pipe`, `fork` and `open` succeeds, and
`execvp` succeeds when it is given a program name; the children get the process
ids 101, 102, ... -/
def demoOracle : Oracle :=
  { pipeOk := fun _ => true, forkPid := fun i => some (100 + i),
    openOk := fun _ _ => true, execOk := fun argv => !argv.isEmpty }

/-- A shell process with the three standard descriptors on the terminal. -/
def demoProc : Proc :=
  { fdt := [(0, File.terminal), (1, File.terminal), (2, File.terminal)], trace := [] }

/-- The stages of `ls -l | grep x | wc`. -/
def demoPipeline : List (List String) := [["ls", "-l"], ["grep", "x"], ["wc"]]

/-- A call of `fork` that created a child. -/
def isFork : Sys → Bool
  | Sys.fork (some _) => true
  | _ => false

/-- A call of `close`. -/
def isClose : Sys → Bool
  | Sys.close _ => true
  | _ => false

/-- A call of `dup2`. -/
def isDup2 : Sys → Bool
  | Sys.dup2 _ _ => true
  | _ => false

/-- A blocking wait of the parent: `wait(nullptr)` or `waitpid(pid, &status, 0)`. -/
def isWait : Sys → Bool
  | Sys.wait => true
  | Sys.waitpid _ => true
  | _ => false

/-- A call of `execvp`. -/
def isExec : Sys → Bool
  | Sys.execvp _ _ => true
  | _ => false

/-- An operating system in which the second call of `fork` fails. -/
def forkFailOracle : Oracle :=
  { pipeOk := fun _ => true, forkPid := fun i => if i = 0 then some 100 else none,
    openOk := fun _ _ => true, execOk := fun _ => true }

/-- An operating system in which the second call of `pipe` fails. -/
def pipeFailOracle : Oracle :=
  { pipeOk := fun k => decide (k < 1), forkPid := fun i => some (100 + i),
    openOk := fun _ _ => true, execOk := fun _ => true }

/-! ## The redirection syntax in the words of the specification -/

/-- The redirection operators `<`, `>` and `>>`. -/
def isRedirOp (a : String) : Bool :=
  a = "<" || a = ">" || a = ">>"

/-- Following the specification: the argument list with every redirection
operator, scanned left to right, and the token immediately following it
removed, and nothing else removed or added. -/
def specFilteredArgs : List String → List String
  | [] => []
  | [a] => if isRedirOp a then [] else [a]
  | a :: f :: rest =>
    if isRedirOp a then specFilteredArgs rest else a :: specFilteredArgs (f :: rest)

/-- Following the specification: every redirection operator, scanned left to
right, has a filename operand after it. -/
def operandsPresent : List String → Bool
  | [] => true
  | [a] => !isRedirOp a
  | a :: f :: rest =>
    if isRedirOp a then operandsPresent rest else operandsPresent (f :: rest)

/-- Following the specification: the scan from left to right ends on an
output operator (`>` or `>>`) that has no filename after it. -/
def danglingOutput : List String → Bool
  | [] => false
  | [a] => a = ">" || a = ">>"
  | a :: f :: rest =>
    if isRedirOp a then danglingOutput rest else danglingOutput (f :: rest)

/-- The calls that `applyRedirect` adds to a trace. -/
def redirEvents (fd : Option Nat) (target : Nat) : List Sys :=
  match fd with
  | none => []
  | some n => [Sys.dup2 n target, Sys.close n]

/-- The `execvp` calls in a trace: program name and argument vector. -/
def execCalls : List Sys → List (Option String × List String)
  | [] => []
  | Sys.execvp file argv :: rest => (file, argv) :: execCalls rest
  | _ :: rest => execCalls rest

/-- What is compared between two executors: how many processes were created,
what standard input and standard output of each child are bound to at the end
of its branch, the `execvp` calls of each child, and how many blocking waits
the parent has performed. -/
structure Observation where
  processes : Nat
  streams : List (Option File × Option File)
  argvs : List (List (Option String × List String))
  waits : Nat
  deriving DecidableEq

/-- The observation of a world. -/
def observe (w : World) : Observation :=
  { processes := w.children.length,
    streams := w.children.map
      (fun c => (fdLookup c.fdt STDIN_FILENO, fdLookup c.fdt STDOUT_FILENO)),
    argvs := w.children.map (fun c => execCalls c.trace),
    waits := w.parent.trace.countP isWait }

/-- The tokens of one segment of a line with pipes, as the loop of `main`
computes them. -/
def segTokens (segment : List Char) : List String :=
  parseInput (String.mk (trimSegment segment))

/-! ## The children of the shell, `sigchld_handler` and the waits -/

/-- The children of the shell as the operating system keeps them: the process
ids of those still running, of those terminated and not yet reaped, then the
log of the terminations in the order they happened, and the log of what the
blocking waits of the shell returned (`none` is `-1`). -/
structure Kids where
  running : List Nat
  zombies : List Nat
  exits : List Nat
  results : List (Option Nat)
  deriving DecidableEq

/-- A shell without any child. -/
def noKids : Kids := { running := [], zombies := [], exits := [], results := [] }

/-- The child `pid` terminates (nothing happens when no such child runs). -/
def childExit (pid : Nat) (k : Kids) : Kids :=
  if pid ∈ k.running then
    { k with running := k.running.erase pid, zombies := k.zombies ++ [pid],
             exits := k.exits ++ [pid] }
  else k

/-- The call `waitpid(-1, nullptr, WNOHANG)`: `some pid` when it reaps a
terminated child and returns its process id, `none` when it returns `0` or
`-1`. -/
def sysWaitpidNoHang (k : Kids) : Option Nat × Kids :=
  match k.zombies with
  | [] => (none, k)
  | z :: zs => (some z, { k with zombies := zs })

/-- The function `sigchld_handler`: `while (waitpid(-1, nullptr, WNOHANG) > 0) {}`,
with at most `n` reaped children. -/
def sigchld_handler : Nat → Kids → Kids
  | 0, k => k
  | n + 1, k =>
    match sysWaitpidNoHang k with
    | (none, k1) => k1
    | (some _, k1) => sigchld_handler n k1

/-- One run of the handler installed by `signal(SIGCHLD, sigchld_handler)`: the
loop ends after as many reaped children as there are terminated ones. -/
def runHandler (k : Kids) : Kids := sigchld_handler k.zombies.length k

/-- The call `wait(nullptr)`: it reaps one terminated child (which one is the
choice `pick` of the operating system) and returns its process id; without any
child it returns `-1`; otherwise it blocks (`none`) until a child terminates.
The handler is installed by `signal`, so a wait that the handler interrupts is
resumed and not ended. -/
def sysWait (pick : Nat) (k : Kids) : Option Kids :=
  match k.zombies with
  | z :: zs =>
    let pid := (z :: zs).getD pick z
    some { k with zombies := (z :: zs).erase pid, results := k.results ++ [some pid] }
  | [] =>
    if k.running = [] then some { k with results := k.results ++ [none] } else none

/-- The call `waitpid(pid, &status, 0)`: it reaps the child `pid` when that
one has terminated, blocks (`none`) while it runs, and returns `-1` when the
shell has no such child. -/
def sysWaitpid (pid : Nat) (k : Kids) : Option Kids :=
  if pid ∈ k.zombies then
    some { k with zombies := k.zombies.erase pid, results := k.results ++ [some pid] }
  else if pid ∈ k.running then none
  else some { k with results := k.results ++ [none] }

/-- What one call of the shell does to its children; `none` when it blocks. -/
def parentStep (pick : Nat) (e : Sys) (k : Kids) : Option Kids :=
  match e with
  | Sys.fork (some pid) => some { k with running := k.running ++ [pid] }
  | Sys.wait => sysWait pick k
  | Sys.waitpid pid => sysWaitpid pid k
  | _ => some k

/-- What happens next: a child terminates, the handler of `SIGCHLD` runs, or
the shell goes on with its next call. -/
inductive Tick
  | childExit (pid : Nat)
  | signal
  | run (pick : Nat)
  deriving DecidableEq

/-- Run the calls `calls` of the shell against its children under a schedule.
The result is the calls not yet completed when the schedule ends (none when
control has returned) and the children at that time. -/
def replay : List Tick → List Sys → Kids → List Sys × Kids
  | [], calls, k => (calls, k)
  | Tick.childExit pid :: ticks, calls, k => replay ticks calls (childExit pid k)
  | Tick.signal :: ticks, calls, k => replay ticks calls (runHandler k)
  | Tick.run pick :: ticks, calls, k =>
    match calls with
    | [] => replay ticks [] k
    | e :: rest =>
      match parentStep pick e k with
      | none => replay ticks (e :: rest) k
      | some k1 => replay ticks rest k1

/-- The process ids of the children that the calls create. -/
def forkPids : List Sys → List Nat
  | [] => []
  | Sys.fork (some pid) :: rest => pid :: forkPids rest
  | _ :: rest => forkPids rest

/-- The schedule in which the shell first completes `n` calls, then the
children `pids` terminate one after the other, then the shell completes `m`
calls. -/
def calmSchedule (n : Nat) (pids : List Nat) (m : Nat) : List Tick :=
  List.replicate n (Tick.run 0) ++ pids.map Tick.childExit ++ List.replicate m (Tick.run 0)

/-! ## The descriptor table -/

theorem fdLookup_eq_none_iff (t : FdTable) (fd : Nat) :
    fdLookup t fd = none ↔ fd ∉ fdKeys t := by
  induction t with
  | nil => simp [fdLookup, fdKeys]
  | cons e rest ih =>
    unfold fdLookup
    by_cases h : e.1 = fd
    · simp [h, fdKeys]
    · simp only [h, if_false, ih, fdKeys, List.map_cons, List.mem_cons, not_or]
      constructor
      · intro h2
        exact ⟨fun h3 => h h3.symm, h2⟩
      · intro h2
        exact h2.2

theorem firstFree_spec (t : FdTable) : ∀ fuel n : Nat,
    fdLookup t (firstFree t fuel n) = none ∨
      (firstFree t fuel n = n + fuel ∧ ∀ j, n ≤ j → j < n + fuel → fdLookup t j ≠ none) := by
  intro fuel
  induction fuel with
  | zero =>
    intro n
    right
    refine ⟨by simp [firstFree], ?_⟩
    intro j h1 h2
    omega
  | succ f ih =>
    intro n
    unfold firstFree
    by_cases h : fdLookup t n = none
    · left
      simp [h]
    · simp only [h, if_false]
      rcases ih (n + 1) with h1 | ⟨h1, h2⟩
      · exact Or.inl h1
      · right
        refine ⟨by omega, ?_⟩
        intro j hj1 hj2
        by_cases hjn : j = n
        · subst hjn
          exact h
        · exact h2 j (by omega) (by omega)

theorem lowestFree_free (t : FdTable) : fdLookup t (lowestFree t) = none := by
  unfold lowestFree
  rcases firstFree_spec t t.length 0 with h | ⟨h1, h2⟩
  · exact h
  · rw [h1]
    by_contra hc
    have hsub : Finset.range (t.length + 1) ⊆ (fdKeys t).toFinset := by
      intro j hj
      rw [Finset.mem_range] at hj
      rw [List.mem_toFinset]
      by_contra hn
      have hnone := (fdLookup_eq_none_iff t j).mpr hn
      by_cases hjl : j < 0 + t.length
      · exact h2 j (Nat.zero_le j) hjl hnone
      · have : j = 0 + t.length := by omega
        rw [this] at hnone
        exact hc hnone
    have hcard := Finset.card_le_card hsub
    rw [Finset.card_range] at hcard
    have hle : (fdKeys t).toFinset.card ≤ (fdKeys t).length := List.toFinset_card_le _
    have hlen : (fdKeys t).length = t.length := by simp [fdKeys]
    omega

theorem lowestFree_not_mem (t : FdTable) : lowestFree t ∉ fdKeys t :=
  (fdLookup_eq_none_iff t _).mp (lowestFree_free t)

/-! ## The array `pipefds` -/

theorem set_at_length {α : Type} (l₁ : List α) (x y : α) (l₂ : List α) :
    (l₁ ++ x :: l₂).set l₁.length y = l₁ ++ y :: l₂ := by
  induction l₁ with
  | nil => simp
  | cons a rest ih => simp [ih]

theorem writeSlot_at (pre : List Nat) (rest : List (Option Nat)) (j v : Nat)
    (hj : pre.length = j) :
    writeSlot (pre.map some ++ none :: rest) j v = Except.ok ((pre ++ [v]).map some ++ rest) := by
  subst hj
  unfold writeSlot
  have hlt : pre.length < (pre.map some ++ none :: rest).length := by simp
  rw [if_pos hlt]
  have h := set_at_length (pre.map some) none (some v) rest
  rw [List.length_map] at h
  rw [h]
  simp

theorem readSlot_some (fds : List Nat) (j v : Nat) (h : fds[j]? = some v) :
    readSlot (fds.map some) j = Except.ok v := by
  unfold readSlot
  simp [List.getElem?_map, h]

theorem pairFds_length (ps : List (Nat × Nat)) : (pairFds ps).length = 2 * ps.length := by
  induction ps with
  | nil => simp [pairFds]
  | cons pr rest ih => simp [pairFds, ih]; omega

theorem pipePairs_length : ∀ (n k : Nat) (t : FdTable), (pipePairs n k t).length = n := by
  intro n
  induction n with
  | zero => intro k t; simp [pipePairs]
  | succ m ih => intro k t; simp [pipePairs, ih]

theorem pairFds_even (ps : List (Nat × Nat)) : ∀ k : Nat,
    (pairFds ps)[k * 2]? = (ps[k]?).map Prod.fst := by
  induction ps with
  | nil => intro k; simp [pairFds]
  | cons pr rest ih =>
    intro k
    cases k with
    | zero => simp [pairFds]
    | succ m =>
      have h : (m + 1) * 2 = m * 2 + 1 + 1 := by omega
      rw [h]
      simp [pairFds, ih]

theorem pairFds_odd (ps : List (Nat × Nat)) : ∀ k : Nat,
    (pairFds ps)[k * 2 + 1]? = (ps[k]?).map Prod.snd := by
  induction ps with
  | nil => intro k; simp [pairFds]
  | cons pr rest ih =>
    intro k
    cases k with
    | zero => simp [pairFds]
    | succ m =>
      have h : (m + 1) * 2 + 1 = (m * 2 + 1) + 1 + 1 := by omega
      rw [h]
      simp [pairFds, ih]

/-! ## The pipe loop -/

theorem pipeLoop_ok (os : Oracle) : ∀ (n i : Nat) (pre : List Nat) (p : Proc),
    (∀ k, i ≤ k → k < i + n → os.pipeOk k = true) → pre.length = i * 2 →
    pipeLoop os n i (pre.map some ++ List.replicate (2 * n) none) p =
      Except.ok (true, (pre ++ pairFds (pipePairs n i p.fdt)).map some,
        { fdt := pipeTable n i p.fdt,
          trace := p.trace ++ pipeEvents i (pipePairs n i p.fdt) }) := by
  intro n
  induction n with
  | zero =>
    intro i pre p _ _
    simp [pipeLoop, pipePairs, pairFds, pipeTable, pipeEvents]
  | succ m ih =>
    intro i pre p hok hlen
    have hi : os.pipeOk i = true := hok i (Nat.le_refl i) (by omega)
    have hrep : List.replicate (2 * (m + 1)) (none : Option Nat)
        = none :: none :: List.replicate (2 * m) none := by
      have h2 : 2 * (m + 1) = 2 * m + 1 + 1 := by omega
      rw [h2, List.replicate_succ, List.replicate_succ]
    unfold pipeLoop
    simp only [sysPipe, hi, if_true]
    rw [hrep, writeSlot_at pre _ (i * 2) _ hlen]
    simp only []
    rw [writeSlot_at (pre ++ [lowestFree p.fdt]) _ (i * 2 + 1) _ (by simp [hlen])]
    simp only []
    have hlen2 : (pre ++ [lowestFree p.fdt] ++
        [lowestFree ((lowestFree p.fdt, File.pipeRead i) :: p.fdt)]).length = (i + 1) * 2 := by
      simp [hlen]; omega
    rw [ih (i + 1) _ _ (fun k h1 h2 => hok k (by omega) (by omega)) hlen2]
    simp [pipePairs, pairFds, pipeTable, pipeEvents]

/-! ## Closing descriptors -/

theorem closeAll_nil (p : Proc) : closeAll [] p = p := rfl

theorem closeAll_cons (fd : Nat) (fds : List Nat) (p : Proc) :
    closeAll (fd :: fds) p = closeAll fds (sysClose fd p) := rfl

theorem closeAll_trace : ∀ (fds : List Nat) (p : Proc),
    (closeAll fds p).trace = p.trace ++ fds.map Sys.close := by
  intro fds
  induction fds with
  | nil => intro p; simp [closeAll_nil]
  | cons fd rest ih => intro p; simp [closeAll_cons, ih, sysClose]

theorem closeAll_fdt : ∀ (fds : List Nat) (p : Proc),
    (closeAll fds p).fdt = p.fdt.filter (fun e => decide (e.1 ∉ fds)) := by
  intro fds
  induction fds with
  | nil => intro p; simp [closeAll_nil]
  | cons fd rest ih =>
    intro p
    rw [closeAll_cons, ih]
    simp only [sysClose, fdClose, List.filter_filter]
    congr 1
    funext e
    simp only [List.mem_cons, not_or, Bool.decide_and, ne_eq]
    exact Bool.and_comm _ _

theorem closeLoop_ok (fds : List Nat) : ∀ (n j : Nat) (p : Proc), j + n ≤ fds.length →
    closeLoop (fds.map some) n j p = Except.ok (closeAll ((fds.drop j).take n) p) := by
  intro n
  induction n with
  | zero => intro j p _; simp [closeLoop, closeAll_nil]
  | succ m ih =>
    intro j p h
    have hj : j < fds.length := by omega
    unfold closeLoop
    rw [readSlot_some fds j fds[j] (List.getElem?_eq_getElem hj)]
    simp only []
    rw [ih (j + 1) _ (by omega)]
    rw [List.drop_eq_getElem_cons hj, List.take_succ_cons, closeAll_cons]

theorem closeLoop_all (fds : List Nat) (p : Proc) :
    closeLoop (fds.map some) fds.length 0 p = Except.ok (closeAll fds p) := by
  rw [closeLoop_ok fds fds.length 0 p (by omega)]
  simp

theorem pipeTable_restore : ∀ (n k : Nat) (t : FdTable),
    (pipeTable n k t).filter (fun e => decide (e.1 ∉ pairFds (pipePairs n k t))) = t := by
  intro n
  induction n with
  | zero => intro k t; simp [pipeTable, pipePairs, pairFds]
  | succ m ih =>
    intro k t
    have hr : lowestFree t ∉ fdKeys t := lowestFree_not_mem t
    have hw := lowestFree_not_mem ((lowestFree t, File.pipeRead k) :: t)
    simp only [fdKeys, List.map_cons, List.mem_cons, not_or] at hw
    simp only [pipeTable, pipePairs, pairFds]
    have hsplit : (fun e : Nat × File => decide (e.1 ∉ lowestFree t ::
          lowestFree ((lowestFree t, File.pipeRead k) :: t) ::
          pairFds (pipePairs m (k + 1)
            ((lowestFree ((lowestFree t, File.pipeRead k) :: t), File.pipeWrite k) ::
              (lowestFree t, File.pipeRead k) :: t))))
        = (fun e : Nat × File =>
            decide (e.1 ∉ [lowestFree t, lowestFree ((lowestFree t, File.pipeRead k) :: t)]) &&
            decide (e.1 ∉ pairFds (pipePairs m (k + 1)
              ((lowestFree ((lowestFree t, File.pipeRead k) :: t), File.pipeWrite k) ::
                (lowestFree t, File.pipeRead k) :: t)))) := by
      funext e
      simp only [List.mem_cons, not_or, Bool.decide_and, List.mem_singleton, List.not_mem_nil,
        or_false, Bool.and_assoc]
    rw [hsplit, ← List.filter_filter, ih]
    simp only [List.filter_cons, List.mem_cons, List.mem_singleton, List.not_mem_nil, or_false,
      true_or, or_true, not_true_eq_false, decide_False, Bool.false_eq_true, if_false]
    rw [List.filter_eq_self]
    intro e he
    have hk : e.1 ∈ fdKeys t := by
      simp only [fdKeys, List.mem_map]
      exact ⟨e, he, rfl⟩
    simp only [decide_eq_true_eq, not_or]
    constructor
    · intro h
      rw [h] at hk
      exact hr hk
    · intro h
      rw [h] at hk
      exact hw.2 hk

/-! ## The children of a pipeline -/

theorem getElem?_getD {α : Type} (l : List α) (k : Nat) (d : α) (h : k < l.length) :
    l[k]? = some (l.getD k d) := by
  rw [List.getD_eq_getElem?_getD, List.getElem?_eq_getElem h]
  rfl

theorem pipeChild_ok (os : Oracle) (commands : List (List String)) (i : Nat)
    (pairs : List (Nat × Nat)) (t : FdTable)
    (hi : i < commands.length) (hp : pairs.length = commands.length - 1) :
    pipeChild os commands commands.length i ((pairFds pairs).map some) { fdt := t, trace := [] }
      = Except.ok (pipeChildProc os (commands.getD i []) commands.length i pairs t) := by
  have hcount : 2 * (commands.length - 1) = (pairFds pairs).length := by
    rw [pairFds_length, hp]
  have hcmd : commands[i]? = some (commands.getD i []) := getElem?_getD commands i [] hi
  have hrd0 : i ≠ 0 → readSlot ((pairFds pairs).map some) ((i - 1) * 2)
      = Except.ok (pairs.getD (i - 1) (0, 0)).1 := by
    intro h0
    apply readSlot_some
    rw [pairFds_even, getElem?_getD pairs (i - 1) (0, 0) (by omega)]
    rfl
  have hrd1 : i ≠ commands.length - 1 → readSlot ((pairFds pairs).map some) (i * 2 + 1)
      = Except.ok (pairs.getD i (0, 0)).2 := by
    intro hN
    apply readSlot_some
    rw [pairFds_odd, getElem?_getD pairs i (0, 0) (by omega)]
    rfl
  unfold pipeChild pipeChildProc
  rw [hcount]
  by_cases h0 : i ≠ 0
  · by_cases hN : i ≠ commands.length - 1
    · simp only [if_pos h0, if_pos hN, hrd0 h0, hrd1 hN, closeLoop_all, hcmd]
    · simp only [if_pos h0, if_neg hN, hrd0 h0, closeLoop_all, hcmd]
  · by_cases hN : i ≠ commands.length - 1
    · simp only [if_neg h0, if_pos hN, hrd1 hN, closeLoop_all, hcmd]
    · simp only [if_neg h0, if_neg hN, closeLoop_all, hcmd]

theorem forkLoop_ok (os : Oracle) (commands : List (List String))
    (pairs : List (Nat × Nat)) (hp : pairs.length = commands.length - 1) :
    ∀ (n i : Nat) (w : World),
    (∀ k, i ≤ k → k < i + n → (os.forkPid k).isSome = true) → i + n ≤ commands.length →
    forkLoop os commands commands.length ((pairFds pairs).map some) n i w =
      Except.ok (true,
        { parent := { fdt := w.parent.fdt, trace := w.parent.trace ++ forkEvents os n i },
          children := w.children ++ (List.range' i n).map (fun j =>
            pipeChildProc os (commands.getD j []) commands.length j pairs w.parent.fdt) }) := by
  intro n
  induction n with
  | zero =>
    intro i w _ _
    simp [forkLoop, forkEvents]
  | succ m ih =>
    intro i w hok hle
    have hi := hok i (Nat.le_refl i) (by omega)
    obtain ⟨pid, hpid⟩ := Option.isSome_iff_exists.mp hi
    unfold forkLoop
    simp only [hpid]
    rw [pipeChild_ok os commands i pairs w.parent.fdt (by omega) hp]
    simp only []
    rw [ih (i + 1) _ (fun k h1 h2 => hok k (by omega) (by omega)) (by omega)]
    simp [forkEvents, hpid, Proc.emit, List.range'_succ]

/-! ## `executepipes` when no call fails -/

theorem waitLoop_eq : ∀ (n : Nat) (p : Proc),
    waitLoop n p = { fdt := p.fdt, trace := p.trace ++ List.replicate n Sys.wait } := by
  intro n
  induction n with
  | zero => intro p; simp [waitLoop]
  | succ m ih =>
    intro p
    simp only [waitLoop, ih, Proc.emit, List.replicate_succ, List.append_assoc,
      List.singleton_append]

theorem executepipes_ok (os : Oracle) (commands : List (List String)) (background : Bool)
    (p : Proc) (hN : 1 ≤ commands.length)
    (hpipe : ∀ k, k < commands.length - 1 → os.pipeOk k = true)
    (hfork : ∀ i, i < commands.length → (os.forkPid i).isSome = true) :
    executepipes os commands background p = Except.ok
      { parent := { fdt := p.fdt,
                    trace := p.trace ++ pipelineTrace os commands.length background p.fdt },
        children := pipelineChildren os commands p.fdt } := by
  have hne : ¬ commands.length = 0 := by omega
  have hloop := pipeLoop_ok os (commands.length - 1) 0 [] p
    (fun k _ h2 => hpipe k (by omega)) (by simp)
  simp only [List.map_nil, List.nil_append] at hloop
  have hp : (pipePairs (commands.length - 1) 0 p.fdt).length = commands.length - 1 :=
    pipePairs_length _ _ _
  have hcount : 2 * (commands.length - 1)
      = (pairFds (pipePairs (commands.length - 1) 0 p.fdt)).length := by
    rw [pairFds_length, hp]
  unfold executepipes
  simp only [hne, if_false, hloop]
  rw [forkLoop_ok os commands _ hp commands.length 0 _
    (fun k _ h2 => hfork k (by omega)) (by omega)]
  simp only []
  rw [hcount, closeLoop_all]
  simp only []
  have hrest := pipeTable_restore (commands.length - 1) 0 p.fdt
  simp only [decide_not] at hrest
  cases background with
  | true =>
    simp [Proc.emit, closeAll_trace, closeAll_fdt, hrest, pipelineTrace,
      pipelineChildren, waitEvents]
  | false =>
    simp [waitLoop_eq, closeAll_trace, closeAll_fdt, hrest, pipelineTrace,
      pipelineChildren, waitEvents]

/-! ## Facts about the descriptors of the pipes -/

theorem pairFds_not_mem : ∀ (n k : Nat) (t : FdTable) (fd : Nat),
    fd ∈ pairFds (pipePairs n k t) → fd ∉ fdKeys t := by
  intro n
  induction n with
  | zero => intro k t fd h; simp [pipePairs, pairFds] at h
  | succ m ih =>
    intro k t fd h
    have hr : lowestFree t ∉ fdKeys t := lowestFree_not_mem t
    have hw := lowestFree_not_mem ((lowestFree t, File.pipeRead k) :: t)
    simp only [fdKeys, List.map_cons, List.mem_cons, not_or] at hw
    simp only [pipePairs, pairFds, List.mem_cons] at h
    rcases h with h | h | h
    · rw [h]; exact hr
    · rw [h]; exact hw.2
    · have h3 := ih _ _ _ h
      simp only [fdKeys, List.map_cons, List.mem_cons, not_or] at h3
      exact h3.2.2

theorem pairFds_nodup : ∀ (n k : Nat) (t : FdTable), (pairFds (pipePairs n k t)).Nodup := by
  intro n
  induction n with
  | zero => intro k t; simp [pipePairs, pairFds]
  | succ m ih =>
    intro k t
    simp only [pipePairs, pairFds, List.nodup_cons, List.mem_cons, not_or]
    have hw := lowestFree_not_mem ((lowestFree t, File.pipeRead k) :: t)
    simp only [fdKeys, List.map_cons, List.mem_cons, not_or] at hw
    refine ⟨⟨fun h => hw.1 h.symm, ?_⟩, ?_, ih _ _⟩
    · intro h
      have h3 := pairFds_not_mem _ _ _ _ h
      simp [fdKeys] at h3
    · intro h
      have h3 := pairFds_not_mem _ _ _ _ h
      simp [fdKeys] at h3

theorem mem_pipeEvents (ps : List (Nat × Nat)) : ∀ (k0 k : Nat) (res : Option (Nat × Nat)),
    Sys.pipe k res ∈ pipeEvents k0 ps ↔
      ∃ pr, res = some pr ∧ k0 ≤ k ∧ ps[k - k0]? = some pr := by
  induction ps with
  | nil => intro k0 k res; simp [pipeEvents]
  | cons pr rest ih =>
    intro k0 k res
    simp only [pipeEvents, List.mem_cons, Sys.pipe.injEq, ih]
    constructor
    · rintro (⟨h1, h2⟩ | ⟨q, h1, h2, h3⟩)
      · exact ⟨pr, h2, by omega, by simp [h1]⟩
      · refine ⟨q, h1, by omega, ?_⟩
        have h4 : k - k0 = (k - (k0 + 1)) + 1 := by omega
        rw [h4]
        simpa using h3
    · rintro ⟨q, h1, h2, h3⟩
      by_cases hk : k = k0
      · left
        subst hk
        simp at h3
        exact ⟨rfl, by rw [h1, h3]⟩
      · right
        refine ⟨q, h1, by omega, ?_⟩
        have h4 : k - k0 = (k - (k0 + 1)) + 1 := by omega
        rw [h4] at h3
        simpa using h3

theorem pipeEvents_only_pipes (ps : List (Nat × Nat)) : ∀ (k0 : Nat) (e : Sys),
    e ∈ pipeEvents k0 ps → ∃ k pr, e = Sys.pipe k (some pr) := by
  induction ps with
  | nil => intro k0 e h; simp [pipeEvents] at h
  | cons pr rest ih =>
    intro k0 e h
    simp only [pipeEvents, List.mem_cons] at h
    rcases h with h | h
    · exact ⟨k0, pr, h⟩
    · exact ih _ _ h

theorem forkEvents_length (os : Oracle) : ∀ (n i : Nat), (forkEvents os n i).length = n := by
  intro n
  induction n with
  | zero => intro i; simp [forkEvents]
  | succ m ih => intro i; simp [forkEvents, ih]

theorem forkEvents_only_forks (os : Oracle) : ∀ (n i : Nat) (e : Sys),
    e ∈ forkEvents os n i → ∃ res, e = Sys.fork res := by
  intro n
  induction n with
  | zero => intro i e h; simp [forkEvents] at h
  | succ m ih =>
    intro i e h
    simp only [forkEvents, List.mem_cons] at h
    rcases h with h | h
    · exact ⟨_, h⟩
    · exact ih _ _ h

theorem forkEvents_success (os : Oracle) : ∀ (n i : Nat) (e : Sys),
    (∀ k, i ≤ k → k < i + n → (os.forkPid k).isSome = true) →
    e ∈ forkEvents os n i → ∃ pid, e = Sys.fork (some pid) := by
  intro n
  induction n with
  | zero => intro i e _ h; simp [forkEvents] at h
  | succ m ih =>
    intro i e hok h
    simp only [forkEvents, List.mem_cons] at h
    rcases h with h | h
    · obtain ⟨pid, hpid⟩ := Option.isSome_iff_exists.mp (hok i (Nat.le_refl i) (by omega))
      exact ⟨pid + 1, by rw [h, hpid]; rfl⟩
    · exact ih _ _ (fun k h1 h2 => hok k (by omega) (by omega)) h

theorem sysExecvp_trace (os : Oracle) (msg : String) (argv : List String) (p : Proc) :
    (sysExecvp os msg argv p).trace = p.trace ++ execEvents os msg argv := by
  unfold sysExecvp execEvents
  by_cases h : os.execOk argv = true
  · simp [h, Proc.emit]
  · simp [h, Proc.emit]

theorem sysExecvp_fdt (os : Oracle) (msg : String) (argv : List String) (p : Proc) :
    (sysExecvp os msg argv p).fdt = p.fdt := by
  unfold sysExecvp
  by_cases h : os.execOk argv = true
  · simp [h, Proc.emit]
  · simp [h, Proc.emit]

theorem pipeChildProc_trace (os : Oracle) (args : List String) (N i : Nat)
    (pairs : List (Nat × Nat)) (t : FdTable) :
    (pipeChildProc os args N i pairs t).trace =
      dupEvents N i pairs ++ (pairFds pairs).map Sys.close ++ execEvents os "execvp" args := by
  unfold pipeChildProc dupEvents
  simp only [sysExecvp_trace, closeAll_trace]
  by_cases h0 : i ≠ 0
  · by_cases hN : i ≠ N - 1
    · simp [if_pos h0, if_pos hN, sysDup2]
    · simp [if_pos h0, if_neg hN, sysDup2]
  · by_cases hN : i ≠ N - 1
    · simp [if_neg h0, if_pos hN, sysDup2]
    · simp [if_neg h0, if_neg hN]

theorem pipelineChildren_length (os : Oracle) (commands : List (List String)) (t : FdTable) :
    (pipelineChildren os commands t).length = commands.length := by
  simp [pipelineChildren]

theorem pipelineChildren_get (os : Oracle) (commands : List (List String)) (t : FdTable)
    (i : Nat) (hi : i < commands.length) :
    (pipelineChildren os commands t)[i]? = some
      (pipeChildProc os (commands.getD i []) commands.length i
        (pipePairs (commands.length - 1) 0 t) (pipeTable (commands.length - 1) 0 t)) := by
  simp [pipelineChildren, List.getElem?_map, List.getElem?_range', hi]

/-! ## Looking descriptors up -/

theorem fdLookup_cons (e : Nat × File) (rest : FdTable) (fd : Nat) :
    fdLookup (e :: rest) fd = if e.1 = fd then some e.2 else fdLookup rest fd := rfl

theorem fdLookup_filter (fds : List Nat) (fd : Nat) : ∀ t : FdTable,
    fdLookup (t.filter (fun e => decide (e.1 ∉ fds))) fd =
      if fd ∈ fds then none else fdLookup t fd := by
  intro t
  induction t with
  | nil => simp [fdLookup]
  | cons e rest ih =>
    by_cases he : e.1 ∈ fds
    · rw [List.filter_cons_of_neg (by simpa using he), ih]
      by_cases hfd : fd ∈ fds
      · simp [hfd]
      · have hne : ¬ e.1 = fd := fun h => hfd (h ▸ he)
        simp [hfd, fdLookup, hne]
    · rw [List.filter_cons_of_pos (by simpa using he)]
      unfold fdLookup
      by_cases hfd : e.1 = fd
      · have : fd ∉ fds := hfd ▸ he
        simp [hfd, this]
      · simp only [hfd, if_false, ih]

theorem fdLookup_fdClose (n fd : Nat) : ∀ t : FdTable,
    fdLookup (fdClose t n) fd = if fd = n then none else fdLookup t fd := by
  intro t
  have h := fdLookup_filter [n] fd t
  simp only [List.mem_singleton] at h
  unfold fdClose
  exact h

theorem fdLookup_fdDup2_ne (t : FdTable) (o n fd : Nat) (h : fd ≠ n) :
    fdLookup (fdDup2 t o n) fd = fdLookup t fd := by
  unfold fdDup2
  cases hl : fdLookup t o with
  | none => rfl
  | some f =>
    by_cases hon : o = n
    · simp [hon]
    · simp only [hon, if_false]
      have hne : ¬ n = fd := fun h2 => h h2.symm
      rw [fdLookup_cons]
      simp only [hne, if_false]
      rw [fdLookup_fdClose]
      simp [h]

theorem fdLookup_fdDup2_eq (t : FdTable) (o n : Nat) (f : File) (h : fdLookup t o = some f) :
    fdLookup (fdDup2 t o n) n = some f := by
  unfold fdDup2
  rw [h]
  by_cases hon : o = n
  · simp only [hon, if_true]
    rw [← hon]
    exact h
  · simp [hon, fdLookup]

theorem pipeTable_lookup_old : ∀ (n k : Nat) (t : FdTable) (fd : Nat),
    fd ∈ fdKeys t → fdLookup (pipeTable n k t) fd = fdLookup t fd := by
  intro n
  induction n with
  | zero => intro k t fd _; rfl
  | succ m ih =>
    intro k t fd h
    have hr : lowestFree t ∉ fdKeys t := lowestFree_not_mem t
    have hw := lowestFree_not_mem ((lowestFree t, File.pipeRead k) :: t)
    simp only [fdKeys, List.map_cons, List.mem_cons, not_or] at hw
    simp only [pipeTable]
    rw [ih]
    · have h1 : ¬ lowestFree ((lowestFree t, File.pipeRead k) :: t) = fd := by
        intro h2
        rw [h2] at hw
        exact hw.2 h
      have h2 : ¬ lowestFree t = fd := by
        intro h3
        rw [h3] at hr
        exact hr h
      simp [fdLookup, h1, h2]
    · simp only [fdKeys, List.map_cons, List.mem_cons]
      exact Or.inr (Or.inr h)

theorem pipeTable_lookup_read : ∀ (n k : Nat) (t : FdTable) (j : Nat), j < n →
    fdLookup (pipeTable n k t) ((pipePairs n k t).getD j (0, 0)).1
      = some (File.pipeRead (k + j)) := by
  intro n
  induction n with
  | zero => intro k t j h; omega
  | succ m ih =>
    intro k t j h
    have hw := lowestFree_not_mem ((lowestFree t, File.pipeRead k) :: t)
    simp only [fdKeys, List.map_cons, List.mem_cons, not_or] at hw
    cases j with
    | zero =>
      simp only [pipeTable, pipePairs, List.getD_cons_zero, Nat.add_zero]
      rw [pipeTable_lookup_old]
      · simp [fdLookup, hw.1]
      · simp [fdKeys]
    | succ i =>
      simp only [pipeTable, pipePairs, List.getD_cons_succ]
      rw [ih _ _ i (by omega)]
      congr 2
      omega

theorem pipeTable_lookup_write : ∀ (n k : Nat) (t : FdTable) (j : Nat), j < n →
    fdLookup (pipeTable n k t) ((pipePairs n k t).getD j (0, 0)).2
      = some (File.pipeWrite (k + j)) := by
  intro n
  induction n with
  | zero => intro k t j h; omega
  | succ m ih =>
    intro k t j h
    cases j with
    | zero =>
      simp only [pipeTable, pipePairs, List.getD_cons_zero, Nat.add_zero]
      rw [pipeTable_lookup_old]
      · simp [fdLookup]
      · simp [fdKeys]
    | succ i =>
      simp only [pipeTable, pipePairs, List.getD_cons_succ]
      rw [ih _ _ i (by omega)]
      congr 2
      omega

theorem pairFds_mem_fst (ps : List (Nat × Nat)) : ∀ j : Nat, j < ps.length →
    (ps.getD j (0, 0)).1 ∈ pairFds ps := by
  induction ps with
  | nil => intro j h; simp at h
  | cons pr rest ih =>
    intro j h
    cases j with
    | zero => simp [pairFds]
    | succ i =>
      simp only [List.getD_cons_succ, pairFds, List.mem_cons]
      exact Or.inr (Or.inr (ih i (by simpa using h)))

theorem pairFds_mem_snd (ps : List (Nat × Nat)) : ∀ j : Nat, j < ps.length →
    (ps.getD j (0, 0)).2 ∈ pairFds ps := by
  induction ps with
  | nil => intro j h; simp at h
  | cons pr rest ih =>
    intro j h
    cases j with
    | zero => simp [pairFds]
    | succ i =>
      simp only [List.getD_cons_succ, pairFds, List.mem_cons]
      exact Or.inr (Or.inr (ih i (by simpa using h)))

theorem pipeChildProc_fdt (os : Oracle) (args : List String) (N i : Nat)
    (pairs : List (Nat × Nat)) (t : FdTable) :
    (pipeChildProc os args N i pairs t).fdt =
      (let t1 := if i ≠ 0 then fdDup2 t (pairs.getD (i - 1) (0, 0)).1 STDIN_FILENO else t
       let t2 := if i ≠ N - 1 then fdDup2 t1 (pairs.getD i (0, 0)).2 STDOUT_FILENO else t1
       t2.filter (fun e => decide (e.1 ∉ pairFds pairs))) := by
  unfold pipeChildProc
  simp only [sysExecvp_fdt, closeAll_fdt]
  by_cases h0 : i ≠ 0
  · by_cases hN : i ≠ N - 1
    · simp only [if_pos h0, if_pos hN, sysDup2]
    · simp only [if_pos h0, if_neg hN, sysDup2]
  · by_cases hN : i ≠ N - 1
    · simp only [if_neg h0, if_pos hN, sysDup2]
    · simp only [if_neg h0, if_neg hN]

theorem mem_child_dup2 (os : Oracle) (args : List String) (N i : Nat)
    (pairs : List (Nat × Nat)) (t : FdTable) (o n : Nat) :
    Sys.dup2 o n ∈ (pipeChildProc os args N i pairs t).trace ↔
      (i ≠ 0 ∧ o = (pairs.getD (i - 1) (0, 0)).1 ∧ n = STDIN_FILENO) ∨
      (i ≠ N - 1 ∧ o = (pairs.getD i (0, 0)).2 ∧ n = STDOUT_FILENO) := by
  rw [pipeChildProc_trace]
  unfold dupEvents execEvents
  by_cases h0 : i ≠ 0
  · by_cases hN : i ≠ N - 1
    · simp [if_pos h0, if_pos hN, h0, hN]
    · simp [if_pos h0, if_neg hN, h0, hN]
  · by_cases hN : i ≠ N - 1
    · simp [if_neg h0, if_pos hN, h0, hN]
    · simp [if_neg h0, if_neg hN, h0, hN]

theorem mem_pipelineTrace_pipe (os : Oracle) (N : Nat) (b : Bool) (t : FdTable) (k : Nat)
    (res : Option (Nat × Nat)) :
    Sys.pipe k res ∈ pipelineTrace os N b t ↔
      ∃ pr, res = some pr ∧ (pipePairs (N - 1) 0 t)[k]? = some pr := by
  unfold pipelineTrace
  simp only [List.mem_append, mem_pipeEvents, Nat.zero_le, true_and, Nat.sub_zero]
  constructor
  · rintro (((h | h) | h) | h)
    · exact h
    · obtain ⟨r, hr⟩ := forkEvents_only_forks _ _ _ _ h
      cases hr
    · simp at h
    · unfold waitEvents at h
      cases b <;> simp at h
  · intro h
    exact Or.inl (Or.inl (Or.inl h))

theorem mem_pairFds (ps : List (Nat × Nat)) (fd : Nat) :
    fd ∈ pairFds ps ↔ ∃ pr, pr ∈ ps ∧ (fd = pr.1 ∨ fd = pr.2) := by
  induction ps with
  | nil => simp [pairFds]
  | cons q rest ih =>
    simp only [pairFds, List.mem_cons, ih]
    constructor
    · rintro (h | h | ⟨pr, h1, h2⟩)
      · exact ⟨q, Or.inl rfl, Or.inl h⟩
      · exact ⟨q, Or.inl rfl, Or.inr h⟩
      · exact ⟨pr, Or.inr h1, h2⟩
    · rintro ⟨pr, h1 | h1, h2⟩
      · rw [h1] at h2
        rcases h2 with h2 | h2
        · exact Or.inl h2
        · exact Or.inr (Or.inl h2)
      · exact Or.inr (Or.inr ⟨pr, h1, h2⟩)

theorem waitEvents_mem (b : Bool) (n : Nat) (e : Sys) (h : e ∈ waitEvents b n) :
    e = Sys.cout "[Background pipeline started]\n" ∨ e = Sys.wait := by
  unfold waitEvents at h
  cases b with
  | true =>
    left
    simpa using h
  | false =>
    right
    simp only [Bool.false_eq_true, if_false] at h
    exact (List.mem_replicate.mp h).2

/-! ## The waits of the shell and its children -/

theorem sigchld_handler_eq : ∀ (n : Nat) (k : Kids), k.zombies.length ≤ n →
    sigchld_handler n k = { k with zombies := [] } := by
  intro n
  induction n with
  | zero =>
    intro k h
    have hz : k.zombies = [] := List.length_eq_zero.mp (by omega)
    cases k
    simp only [sigchld_handler]
    simp only at hz
    rw [hz]
  | succ m ih =>
    intro k h
    cases k with
    | mk running zombies exits results =>
      cases zombies with
      | nil => simp [sigchld_handler, sysWaitpidNoHang]
      | cons z zs =>
        simp only [sigchld_handler, sysWaitpidNoHang]
        rw [ih _ (by simp at h ⊢; omega)]

theorem runHandler_eq (k : Kids) : runHandler k = { k with zombies := [] } :=
  sigchld_handler_eq _ k (Nat.le_refl _)

theorem getD_mem_cons (z : Nat) (zs : List Nat) (pick : Nat) :
    (z :: zs).getD pick z ∈ z :: zs := by
  rw [List.getD_eq_getElem?_getD]
  cases h : (z :: zs)[pick]? with
  | none => simp
  | some x =>
    simp only [Option.getD_some]
    exact List.getElem?_mem h

theorem forkPids_of_not_fork (e : Sys) (rest : List Sys) (h : isFork e = false) :
    forkPids (e :: rest) = forkPids rest := by
  cases e with
  | fork res =>
    cases res with
    | none => rfl
    | some pid => simp [isFork] at h
  | _ => rfl

theorem forkPids_replicate_wait (m : Nat) : forkPids (List.replicate m Sys.wait) = [] := by
  induction m with
  | zero => rfl
  | succ n ih => rw [List.replicate_succ, forkPids_of_not_fork Sys.wait _ rfl, ih]

theorem forkPids_append (l₁ l₂ : List Sys) : forkPids (l₁ ++ l₂) = forkPids l₁ ++ forkPids l₂ := by
  induction l₁ with
  | nil => rfl
  | cons e rest ih =>
    cases e with
    | fork res =>
      cases res with
      | none => simpa [forkPids] using ih
      | some pid => simp [forkPids, ih]
    | _ => simpa [forkPids] using ih

theorem forkPids_length (l : List Sys) : (forkPids l).length = l.countP isFork := by
  induction l with
  | nil => rfl
  | cons e rest ih =>
    cases e with
    | fork res =>
      cases res with
      | none => simpa [forkPids, isFork] using ih
      | some pid => simp [forkPids, isFork, ih]
    | _ => simpa [forkPids, isFork] using ih

theorem parentStep_not_wait (pick : Nat) (e : Sys) (k : Kids) (h : isWait e = false) :
    parentStep pick e k = some { k with running := k.running ++ forkPids [e] } := by
  cases e with
  | fork res =>
    cases res with
    | none => simp [parentStep, forkPids]
    | some pid => simp [parentStep, forkPids]
  | wait => simp [isWait] at h
  | waitpid pid => simp [isWait] at h
  | _ => simp [parentStep, forkPids]

theorem replay_waits_all : ∀ (ticks : List Tick) (pre : List Sys) (m : Nat) (k k2 : Kids),
    (∀ e, e ∈ pre → isWait e = false) →
    k.running.length + k.zombies.length + (forkPids pre).length ≤ m →
    replay ticks (pre ++ List.replicate m Sys.wait) k = ([], k2) →
    k2.running = [] ∧ k2.zombies = [] := by
  intro ticks
  induction ticks with
  | nil =>
    intro pre m k k2 _ hle h
    simp only [replay, Prod.mk.injEq] at h
    obtain ⟨h1, h2⟩ := h
    have hpre : pre = [] := (List.append_eq_nil.mp h1).1
    have hm : m = 0 := by
      have := (List.append_eq_nil.mp h1).2
      cases m with
      | zero => rfl
      | succ n => simp [List.replicate_succ] at this
    subst hpre hm h2
    simp only [forkPids, List.length_nil] at hle
    exact ⟨List.length_eq_zero.mp (by omega), List.length_eq_zero.mp (by omega)⟩
  | cons t ts ih =>
    intro pre m k k2 hpre hle h
    cases t with
    | childExit pid =>
      simp only [replay] at h
      refine ih pre m _ k2 hpre ?_ h
      unfold childExit
      by_cases hmem : pid ∈ k.running
      · have hpos : 0 < k.running.length := List.length_pos_of_mem hmem
        simp only [hmem, if_true, List.length_erase_of_mem hmem, List.length_append,
          List.length_singleton]
        omega
      · simp only [hmem, if_false]
        exact hle
    | signal =>
      simp only [replay, runHandler_eq] at h
      refine ih pre m _ k2 hpre ?_ h
      simp only [List.length_nil]
      omega
    | run pick =>
      cases pre with
      | cons e rest =>
        have he : isWait e = false := hpre e (List.mem_cons_self e rest)
        simp only [List.cons_append, replay, parentStep_not_wait pick e k he] at h
        refine ih rest m _ k2 (fun x hx => hpre x (List.mem_cons_of_mem e hx)) ?_ h
        have hsplit : forkPids (e :: rest) = forkPids [e] ++ forkPids rest :=
          forkPids_append [e] rest
        rw [hsplit] at hle
        simp only [List.length_append] at hle ⊢
        omega
      | nil =>
        cases m with
        | zero =>
          simp only [List.nil_append, List.replicate_zero, replay] at h
          exact ih [] 0 k k2 (by simp) hle (by simpa using h)
        | succ n =>
          simp only [List.nil_append, List.replicate_succ, replay, parentStep] at h
          cases hz : k.zombies with
          | nil =>
            by_cases hr : k.running = []
            · simp only [sysWait, hz, hr, if_true] at h
              refine ih [] n _ k2 (by simp) ?_ (by simpa using h)
              simp [hz, hr, forkPids]
            · simp only [sysWait, hz, hr, if_false] at h
              refine ih [] (n + 1) k k2 (by simp) hle ?_
              simpa [List.replicate_succ] using h
          | cons z zs =>
            simp only [sysWait, hz] at h
            refine ih [] n _ k2 (by simp) ?_ (by simpa using h)
            have hmem := getD_mem_cons z zs pick
            have hlen := List.length_erase_of_mem hmem
            rw [hz] at hle
            simp only [List.getD_eq_getElem?_getD, List.length_cons, forkPids,
              List.length_nil] at hle hlen ⊢
            omega

theorem parentStep_counts (pick : Nat) (e : Sys) (k k1 : Kids)
    (h : parentStep pick e k = some k1) :
    k1.exits = k.exits ∧ k1.running = k.running ++ forkPids [e] := by
  cases e with
  | fork res =>
    cases res with
    | none =>
      simp only [parentStep, Option.some.injEq] at h
      subst h
      simp [forkPids]
    | some pid =>
      simp only [parentStep, Option.some.injEq] at h
      subst h
      simp [forkPids]
  | wait =>
    simp only [parentStep, sysWait] at h
    split at h
    · simp only [Option.some.injEq] at h
      subst h
      simp [forkPids]
    · split at h
      · simp only [Option.some.injEq] at h
        subst h
        simp [forkPids]
      · cases h
  | waitpid pid =>
    simp only [parentStep, sysWaitpid] at h
    split at h
    · simp only [Option.some.injEq] at h
      subst h
      simp [forkPids]
    · split at h
      · cases h
      · simp only [Option.some.injEq] at h
        subst h
        simp [forkPids]
  | _ =>
    simp only [parentStep, Option.some.injEq] at h
    subst h
    simp [forkPids]

theorem replay_exits_count (a : Nat) : ∀ (ticks : List Tick) (calls rest : List Sys)
    (k k2 : Kids), replay ticks calls k = (rest, k2) →
    k2.running.count a + k2.exits.count a + (forkPids rest).count a =
      k.running.count a + k.exits.count a + (forkPids calls).count a := by
  intro ticks
  induction ticks with
  | nil =>
    intro calls rest k k2 h
    simp only [replay, Prod.mk.injEq] at h
    rw [h.1, h.2]
  | cons t ts ih =>
    intro calls rest k k2 h
    cases t with
    | childExit pid =>
      simp only [replay] at h
      rw [ih _ _ _ _ h]
      unfold childExit
      by_cases hmem : pid ∈ k.running
      · simp only [hmem, if_true, List.count_append, List.count_erase]
        by_cases hap : a = pid
        · subst hap
          have hpos : 0 < k.running.count a := List.count_pos_iff.mpr hmem
          simp
          omega
        · have hne : (a == pid) = false := by simpa using hap
          have hne2 : (pid == a) = false := by simpa using fun h => hap h.symm
          simp [hne, hne2, List.count_singleton]
      · simp only [hmem, if_false]
    | signal =>
      simp only [replay, runHandler_eq] at h
      rw [ih _ _ _ _ h]
    | run pick =>
      cases calls with
      | nil =>
        simp only [replay] at h
        exact ih _ _ _ _ h
      | cons e more =>
        simp only [replay] at h
        cases hstep : parentStep pick e k with
        | none =>
          rw [hstep] at h
          exact ih _ _ _ _ h
        | some k1 =>
          rw [hstep] at h
          obtain ⟨h1, h2⟩ := parentStep_counts pick e k k1 hstep
          rw [ih _ _ _ _ h, h1, h2]
          have hsplit : forkPids (e :: more) = forkPids [e] ++ forkPids more :=
            forkPids_append [e] more
          rw [hsplit]
          simp only [List.count_append]
          omega

theorem replay_run_pre : ∀ (pre : List Sys) (ticks : List Tick) (rest : List Sys) (k : Kids),
    (∀ e, e ∈ pre → isWait e = false) →
    replay (List.replicate pre.length (Tick.run 0) ++ ticks) (pre ++ rest) k =
      replay ticks rest { k with running := k.running ++ forkPids pre } := by
  intro pre
  induction pre with
  | nil =>
    intro ticks rest k _
    simp [forkPids]
  | cons e more ih =>
    intro ticks rest k hpre
    have he : isWait e = false := hpre e (List.mem_cons_self e more)
    have hsplit : forkPids (e :: more) = forkPids [e] ++ forkPids more :=
      forkPids_append [e] more
    simp only [List.length_cons, List.replicate_succ, List.cons_append, replay,
      parentStep_not_wait 0 e k he, List.append_eq]
    rw [ih ticks rest _ (fun x hx => hpre x (List.mem_cons_of_mem e hx)), hsplit]
    simp

theorem replay_exits : ∀ (pids : List Nat) (ticks : List Tick) (calls : List Sys) (k : Kids),
    k.running = pids →
    replay (pids.map Tick.childExit ++ ticks) calls k =
      replay ticks calls
        { k with running := [], zombies := k.zombies ++ pids, exits := k.exits ++ pids } := by
  intro pids
  induction pids with
  | nil =>
    intro ticks calls k h
    cases k
    simp only at h
    simp [h]
  | cons a more ih =>
    intro ticks calls k h
    simp only [List.map_cons, List.cons_append, replay, List.append_eq]
    have hk : childExit a k =
        { k with running := more, zombies := k.zombies ++ [a], exits := k.exits ++ [a] } := by
      unfold childExit
      simp [h]
    rw [hk, ih ticks calls
      { k with running := more, zombies := k.zombies ++ [a], exits := k.exits ++ [a] } rfl]
    simp

theorem replay_waits : ∀ (m : Nat) (k : Kids), k.zombies.length = m →
    ∃ k2, replay (List.replicate m (Tick.run 0)) (List.replicate m Sys.wait) k = ([], k2) := by
  intro m
  induction m with
  | zero =>
    intro k _
    exact ⟨k, by simp [replay]⟩
  | succ n ih =>
    intro k h
    cases hz : k.zombies with
    | nil => rw [hz] at h; simp at h
    | cons z zs =>
      simp only [List.replicate_succ, replay, parentStep, sysWait, hz]
      apply ih
      rw [hz] at h
      simp at h ⊢
      exact h

theorem replay_foreground (pre : List Sys) (m : Nat)
    (hpre : ∀ e, e ∈ pre → isWait e = false) (hlen : (forkPids pre).length = m) :
    (∀ ticks k, replay ticks (pre ++ List.replicate m Sys.wait) noKids = ([], k) →
      k.running = [] ∧ k.zombies = [] ∧
        k.exits.Perm (forkPids (pre ++ List.replicate m Sys.wait))) ∧
    (∃ k, replay (calmSchedule pre.length (forkPids pre) m)
      (pre ++ List.replicate m Sys.wait) noKids = ([], k)) := by
  constructor
  · intro ticks k h
    obtain ⟨h1, h2⟩ := replay_waits_all ticks pre m noKids k hpre (by simp [noKids, hlen]) h
    refine ⟨h1, h2, ?_⟩
    rw [List.perm_iff_count]
    intro a
    have hc := replay_exits_count a ticks _ _ _ _ h
    simp only [h1, noKids, forkPids, List.count_nil] at hc
    omega
  · unfold calmSchedule
    rw [List.append_assoc, replay_run_pre pre _ _ _ hpre,
      replay_exits (forkPids pre) _ _ _ (by simp [noKids])]
    apply replay_waits
    simp [noKids, hlen]

theorem executecommand_waitpid_targets_child :
    (executecommand demoOracle ["ls"] demoProc).parent.trace =
      [Sys.fork (some 101), Sys.waitpid 101] ∧
    replay [Tick.run 0, Tick.childExit 7, Tick.run 0, Tick.childExit 101, Tick.run 0]
        (executecommand demoOracle ["ls"] demoProc).parent.trace
        { running := [7], zombies := [], exits := [], results := [] } =
      ([], { running := [], zombies := [7], exits := [7, 101], results := [some 101] }) := by
  decide

/-! ## The claims about `executepipes` -/

/-- C1: in a pipeline of `N ≥ 1` commands in which every `pipe` and `fork`
succeeds, `executepipes` never indexes `pipefds` out of range, creates `N`
children, and child `i` calls `dup2` onto standard input exactly when `i > 0`,
then with the read end returned by `pipe` call `i - 1`, and onto standard output
exactly when `i < N - 1`, then with the write end returned by `pipe` call `i`;
it calls `dup2` onto nothing else.  So standard input of the first child and
standard output of the last child are what they were in the shell, stage `i`
writes to and stage `i + 1` reads from the two ends of pipe `i`, and when the
shell has its standard input and output open, the descriptor tables of the
children say the same. -/
theorem executepipes_wiring (os : Oracle) (commands : List (List String)) (background : Bool)
    (p : Proc) (hN : 1 ≤ commands.length)
    (hpipe : ∀ k, k < commands.length - 1 → os.pipeOk k = true)
    (hfork : ∀ i, i < commands.length → (os.forkPid i).isSome = true) :
    ∃ (w : World) (new : List Sys),
      executepipes os commands background p = Except.ok w ∧
      w.parent.trace = p.trace ++ new ∧
      w.children.length = commands.length ∧
      (∀ i, i < commands.length → ∃ c, w.children[i]? = some c ∧
        (∀ fd, Sys.dup2 fd STDIN_FILENO ∈ c.trace ↔
          (0 < i ∧ ∃ wfd, Sys.pipe (i - 1) (some (fd, wfd)) ∈ new)) ∧
        (∀ fd, Sys.dup2 fd STDOUT_FILENO ∈ c.trace ↔
          (i < commands.length - 1 ∧ ∃ rfd, Sys.pipe i (some (rfd, fd)) ∈ new)) ∧
        (∀ o n, Sys.dup2 o n ∈ c.trace → n = STDIN_FILENO ∨ n = STDOUT_FILENO) ∧
        (i = 0 → fdLookup c.fdt STDIN_FILENO = fdLookup p.fdt STDIN_FILENO) ∧
        (i = commands.length - 1 →
          fdLookup c.fdt STDOUT_FILENO = fdLookup p.fdt STDOUT_FILENO) ∧
        (fdLookup p.fdt STDIN_FILENO ≠ none → fdLookup p.fdt STDOUT_FILENO ≠ none →
          (0 < i → fdLookup c.fdt STDIN_FILENO = some (File.pipeRead (i - 1))) ∧
          (i < commands.length - 1 →
            fdLookup c.fdt STDOUT_FILENO = some (File.pipeWrite i)))) ∧
      (∀ i, i + 1 < commands.length → ∃ r wr c c2,
        Sys.pipe i (some (r, wr)) ∈ new ∧
        w.children[i]? = some c ∧ Sys.dup2 wr STDOUT_FILENO ∈ c.trace ∧
        w.children[i + 1]? = some c2 ∧ Sys.dup2 r STDIN_FILENO ∈ c2.trace) := by
  have hp : (pipePairs (commands.length - 1) 0 p.fdt).length = commands.length - 1 :=
    pipePairs_length _ _ _
  have h01 : STDIN_FILENO ≠ STDOUT_FILENO := by decide
  have hrest := pipeTable_restore (commands.length - 1) 0 p.fdt
  refine ⟨_, pipelineTrace os commands.length background p.fdt,
    executepipes_ok os commands background p hN hpipe hfork, rfl,
    pipelineChildren_length _ _ _, ?_, ?_⟩
  · intro i hi
    refine ⟨_, pipelineChildren_get os commands p.fdt i hi, ?_, ?_, ?_, ?_, ?_, ?_⟩
    · intro fd
      simp only [mem_child_dup2, mem_pipelineTrace_pipe]
      constructor
      · rintro (⟨h1, h2, _⟩ | ⟨_, _, h3⟩)
        · refine ⟨by omega, ((pipePairs (commands.length - 1) 0 p.fdt).getD (i - 1) (0, 0)).2,
            _, rfl, ?_⟩
          rw [getElem?_getD _ (i - 1) (0, 0) (by omega), h2]
        · exact absurd h3 h01
      · rintro ⟨h1, wfd, pr, h2, h3⟩
        left
        refine ⟨by omega, ?_, trivial⟩
        rw [getElem?_getD _ (i - 1) (0, 0) (by omega)] at h3
        rw [Option.some.inj h3, ← Option.some.inj h2]
    · intro fd
      simp only [mem_child_dup2, mem_pipelineTrace_pipe]
      constructor
      · rintro (⟨_, _, h3⟩ | ⟨h1, h2, _⟩)
        · exact absurd h3.symm h01
        · refine ⟨by omega, ((pipePairs (commands.length - 1) 0 p.fdt).getD i (0, 0)).1,
            _, rfl, ?_⟩
          rw [getElem?_getD _ i (0, 0) (by omega), h2]
      · rintro ⟨h1, rfd, pr, h2, h3⟩
        right
        refine ⟨by omega, ?_, trivial⟩
        rw [getElem?_getD _ i (0, 0) (by omega)] at h3
        rw [Option.some.inj h3, ← Option.some.inj h2]
    · intro o n h
      rw [mem_child_dup2] at h
      rcases h with ⟨_, _, h3⟩ | ⟨_, _, h3⟩
      · exact Or.inl h3
      · exact Or.inr h3
    · intro hi0
      have hne : ¬ i ≠ 0 := fun h => h hi0
      rw [pipeChildProc_fdt]
      simp only [if_neg hne]
      rw [fdLookup_filter]
      conv_rhs => rw [← hrest, fdLookup_filter]
      by_cases hmem : STDIN_FILENO ∈ pairFds (pipePairs (commands.length - 1) 0 p.fdt)
      · simp only [if_pos hmem]
      · simp only [if_neg hmem]
        by_cases hl : i ≠ commands.length - 1
        · simp only [if_pos hl]
          exact fdLookup_fdDup2_ne _ _ _ _ h01
        · simp only [if_neg hl]
    · intro hiN
      have hne : ¬ i ≠ commands.length - 1 := fun h => h hiN
      rw [pipeChildProc_fdt]
      simp only [if_neg hne]
      rw [fdLookup_filter]
      conv_rhs => rw [← hrest, fdLookup_filter]
      by_cases hmem : STDOUT_FILENO ∈ pairFds (pipePairs (commands.length - 1) 0 p.fdt)
      · simp only [if_pos hmem]
      · simp only [if_neg hmem]
        by_cases hl : i ≠ 0
        · simp only [if_pos hl]
          exact fdLookup_fdDup2_ne _ _ _ _ h01.symm
        · simp only [if_neg hl]
    · intro hin hout
      have hin2 : STDIN_FILENO ∉ pairFds (pipePairs (commands.length - 1) 0 p.fdt) := by
        intro hmem
        exact hin ((fdLookup_eq_none_iff _ _).mpr (pairFds_not_mem _ _ _ _ hmem))
      have hout2 : STDOUT_FILENO ∉ pairFds (pipePairs (commands.length - 1) 0 p.fdt) := by
        intro hmem
        exact hout ((fdLookup_eq_none_iff _ _).mpr (pairFds_not_mem _ _ _ _ hmem))
      constructor
      · intro hpos
        have hne : i ≠ 0 := by omega
        have hrd := pipeTable_lookup_read (commands.length - 1) 0 p.fdt (i - 1) (by omega)
        rw [Nat.zero_add] at hrd
        rw [pipeChildProc_fdt]
        simp only [if_pos hne]
        rw [fdLookup_filter, if_neg hin2]
        by_cases hl : i ≠ commands.length - 1
        · simp only [if_pos hl]
          rw [fdLookup_fdDup2_ne _ _ _ _ h01]
          exact fdLookup_fdDup2_eq _ _ _ _ hrd
        · simp only [if_neg hl]
          exact fdLookup_fdDup2_eq _ _ _ _ hrd
      · intro hlt
        have hl : i ≠ commands.length - 1 := by omega
        have hwr := pipeTable_lookup_write (commands.length - 1) 0 p.fdt i (by omega)
        rw [Nat.zero_add] at hwr
        have hwne : ((pipePairs (commands.length - 1) 0 p.fdt).getD i (0, 0)).2
            ≠ STDIN_FILENO := by
          intro heq
          apply hin2
          rw [← heq]
          exact pairFds_mem_snd _ i (by omega)
        rw [pipeChildProc_fdt]
        simp only [if_pos hl]
        rw [fdLookup_filter, if_neg hout2]
        apply fdLookup_fdDup2_eq
        by_cases hne : i ≠ 0
        · simp only [if_pos hne]
          rw [fdLookup_fdDup2_ne _ _ _ _ hwne]
          exact hwr
        · simp only [if_neg hne]
          exact hwr
  · intro i hi
    refine ⟨((pipePairs (commands.length - 1) 0 p.fdt).getD i (0, 0)).1,
      ((pipePairs (commands.length - 1) 0 p.fdt).getD i (0, 0)).2, _, _, ?_,
      pipelineChildren_get os commands p.fdt i (by omega), ?_,
      pipelineChildren_get os commands p.fdt (i + 1) hi, ?_⟩
    · rw [mem_pipelineTrace_pipe]
      exact ⟨_, rfl, getElem?_getD _ i (0, 0) (by omega)⟩
    · rw [mem_child_dup2]
      exact Or.inr ⟨by omega, rfl, rfl⟩
    · rw [mem_child_dup2]
      exact Or.inl ⟨by omega, rfl, rfl⟩

/-- The wiring theorem at `ls -l | grep x | wc`: three children, the middle
one reading pipe 0 and writing pipe 1. -/
theorem executepipes_wiring_witness :
    1 ≤ demoPipeline.length ∧
    (∀ k, k < demoPipeline.length - 1 → demoOracle.pipeOk k = true) ∧
    (∀ i, i < demoPipeline.length → (demoOracle.forkPid i).isSome = true) ∧
    ∃ (w : World) (c : Proc),
      executepipes demoOracle demoPipeline false demoProc = Except.ok w ∧
      w.children.length = 3 ∧ w.children[1]? = some c ∧
      fdLookup c.fdt STDIN_FILENO = some (File.pipeRead 0) ∧
      fdLookup c.fdt STDOUT_FILENO = some (File.pipeWrite 1) := by
  refine ⟨by decide, fun _ _ => rfl, fun _ _ => rfl, ?_⟩
  obtain ⟨w, new, h1, _, h3, h4, _⟩ :=
    executepipes_wiring demoOracle demoPipeline false demoProc (by decide)
      (fun _ _ => rfl) (fun _ _ => rfl)
  obtain ⟨c, hc, _, _, _, _, _, h5⟩ := h4 1 (by decide)
  have h6 := h5 (by decide) (by decide)
  exact ⟨w, c, h1, h3, hc, h6.1 (by decide), h6.2 (by decide)⟩

/-- C2: in a pipeline of `N ≥ 1` commands in which every `pipe` and `fork`
succeeds, the calls of the parent are: the `pipe` and `fork` calls, among them
`N` successful forks and no wait; then one `close` for each of the `2 * (N - 1)`
descriptors that the `pipe` calls returned, all different; then the rest, with
no `fork` and no `close`.  When `executepipes` returns, the descriptor table of
the parent is what it was before the call and none of the pipe descriptors is
open in it.  Every child calls `dup2` only before, and `close` on every pipe
descriptor, and `execvp` right after these closes, with no pipe descriptor left
open. -/
theorem executepipes_closes_pipes (os : Oracle) (commands : List (List String))
    (background : Bool) (p : Proc) (hN : 1 ≤ commands.length)
    (hpipe : ∀ k, k < commands.length - 1 → os.pipeOk k = true)
    (hfork : ∀ i, i < commands.length → (os.forkPid i).isSome = true) :
    ∃ (w : World) (spawn : List Sys) (fds : List Nat) (rest : List Sys),
      executepipes os commands background p = Except.ok w ∧
      w.parent.trace = p.trace ++ spawn ++ fds.map Sys.close ++ rest ∧
      fds.length = 2 * (commands.length - 1) ∧ fds.Nodup ∧
      (∀ fd, fd ∈ fds ↔ ∃ k r wr, Sys.pipe k (some (r, wr)) ∈ spawn ∧ (fd = r ∨ fd = wr)) ∧
      (∀ e, e ∈ spawn ∨ e ∈ rest → isClose e = false) ∧
      spawn.countP isFork = commands.length ∧
      (∀ e, e ∈ rest → isFork e = false) ∧
      (∀ e, e ∈ spawn → isWait e = false) ∧
      w.parent.fdt = p.fdt ∧
      (∀ fd, fd ∈ fds → fdLookup w.parent.fdt fd = none) ∧
      (∀ c, c ∈ w.children → ∃ (dups tail : List Sys),
        c.trace = dups ++ fds.map Sys.close ++ tail ∧
        (∀ e, e ∈ dups → isDup2 e = true) ∧
        (∀ e, e ∈ tail → isDup2 e = false ∧ isClose e = false) ∧
        (∃ file argv, tail.head? = some (Sys.execvp file argv)) ∧
        (∀ fd, fd ∈ fds → fdLookup c.fdt fd = none)) := by
  have hp : (pipePairs (commands.length - 1) 0 p.fdt).length = commands.length - 1 :=
    pipePairs_length _ _ _
  refine ⟨_, pipeEvents 0 (pipePairs (commands.length - 1) 0 p.fdt) ++
      forkEvents os commands.length 0,
    pairFds (pipePairs (commands.length - 1) 0 p.fdt), waitEvents background commands.length,
    executepipes_ok os commands background p hN hpipe hfork, ?_, ?_, pairFds_nodup _ _ _,
    ?_, ?_, ?_, ?_, ?_, rfl, ?_, ?_⟩
  · simp [pipelineTrace]
  · rw [pairFds_length, hp]
  · intro fd
    rw [mem_pairFds]
    constructor
    · rintro ⟨pr, hpr, h⟩
      obtain ⟨k, hk⟩ := List.mem_iff_getElem?.mp hpr
      refine ⟨k, pr.1, pr.2, ?_, h⟩
      rw [List.mem_append, mem_pipeEvents]
      exact Or.inl ⟨pr, rfl, Nat.zero_le k, hk⟩
    · rintro ⟨k, r, wr, hmem, h⟩
      rw [List.mem_append, mem_pipeEvents] at hmem
      rcases hmem with ⟨pr, h1, _, h3⟩ | hmem
      · refine ⟨pr, List.mem_iff_getElem?.mpr ⟨_, h3⟩, ?_⟩
        rw [← Option.some.inj h1]
        exact h
      · obtain ⟨res, hres⟩ := forkEvents_only_forks _ _ _ _ hmem
        cases hres
  · intro e he
    rcases he with he | he
    · rw [List.mem_append] at he
      rcases he with he | he
      · obtain ⟨k, pr, h⟩ := pipeEvents_only_pipes _ _ _ he
        rw [h]; rfl
      · obtain ⟨res, h⟩ := forkEvents_only_forks _ _ _ _ he
        rw [h]; rfl
    · rcases waitEvents_mem _ _ _ he with h | h <;> (rw [h]; rfl)
  · rw [List.countP_append]
    have h1 : (pipeEvents 0 (pipePairs (commands.length - 1) 0 p.fdt)).countP isFork = 0 := by
      rw [List.countP_eq_zero]
      intro e he
      obtain ⟨k, pr, h⟩ := pipeEvents_only_pipes _ _ _ he
      rw [h]; simp [isFork]
    have h2 : (forkEvents os commands.length 0).countP isFork = commands.length := by
      have h3 : (forkEvents os commands.length 0).countP isFork
          = (forkEvents os commands.length 0).length := by
        rw [List.countP_eq_length]
        intro e he
        obtain ⟨pid, h⟩ := forkEvents_success os _ _ e (fun k _ h2 => hfork k (by omega)) he
        rw [h]; rfl
      rw [h3, forkEvents_length]
    rw [h1, h2]
    omega
  · intro e he
    rcases waitEvents_mem _ _ _ he with h | h <;> (rw [h]; rfl)
  · intro e he
    rw [List.mem_append] at he
    rcases he with he | he
    · obtain ⟨k, pr, h⟩ := pipeEvents_only_pipes _ _ _ he
      rw [h]; rfl
    · obtain ⟨res, h⟩ := forkEvents_only_forks _ _ _ _ he
      rw [h]; rfl
  · intro fd hfd
    exact (fdLookup_eq_none_iff _ _).mpr (pairFds_not_mem _ _ _ _ hfd)
  · intro c hc
    simp only [pipelineChildren, List.mem_map] at hc
    obtain ⟨j, _, hj⟩ := hc
    refine ⟨dupEvents commands.length j (pipePairs (commands.length - 1) 0 p.fdt),
      execEvents os "execvp" (commands.getD j []), ?_, ?_, ?_, ?_, ?_⟩
    · rw [← hj, pipeChildProc_trace]
    · intro e he
      unfold dupEvents at he
      rw [List.mem_append] at he
      rcases he with he | he
      · split at he
        · simp at he; rw [he]; rfl
        · simp at he
      · split at he
        · simp at he; rw [he]; rfl
        · simp at he
    · intro e he
      unfold execEvents at he
      rw [List.mem_cons] at he
      rcases he with he | he
      · rw [he]; exact ⟨rfl, rfl⟩
      · split at he
        · simp at he
        · simp at he
          rcases he with he | he <;> (rw [he]; exact ⟨rfl, rfl⟩)
    · exact ⟨_, _, rfl⟩
    · intro fd hfd
      rw [← hj, pipeChildProc_fdt]
      simp only []
      rw [fdLookup_filter, if_pos hfd]

/-- The theorem on the closes at `ls -l | grep x | wc`, run in the background. -/
theorem executepipes_closes_pipes_witness :
    1 ≤ demoPipeline.length ∧
    (∀ k, k < demoPipeline.length - 1 → demoOracle.pipeOk k = true) ∧
    (∀ i, i < demoPipeline.length → (demoOracle.forkPid i).isSome = true) ∧
    ∃ (w : World) (spawn : List Sys) (fds : List Nat) (rest : List Sys),
      executepipes demoOracle demoPipeline true demoProc = Except.ok w ∧
      w.parent.trace = demoProc.trace ++ spawn ++ fds.map Sys.close ++ rest ∧
      fds.length = 4 ∧ fds.Nodup ∧ w.parent.fdt = demoProc.fdt := by
  refine ⟨by decide, fun _ _ => rfl, fun _ _ => rfl, ?_⟩
  obtain ⟨w, spawn, fds, rest, h1, h2, h3, h4, _, _, _, _, _, h5, _⟩ :=
    executepipes_closes_pipes demoOracle demoPipeline true demoProc (by decide)
      (fun _ _ => rfl) (fun _ _ => rfl)
  exact ⟨w, spawn, fds, rest, h1, h2, h3, h4, h5⟩

/-- C3, as stated, fails twice.  In the foreground pipeline `ls | wc` whose
second `fork` fails, one process is created for two commands, and the parent
returns without any wait.  And when both forks succeed while a background job
(process 7) of the shell is alive, the schedule in which the job terminates
first and then `ls` (process 101) makes the two calls of `wait(nullptr)` return
7 and 101: control returns while `wc` (process 102) still runs, and only one of
the two terminations observed is that of a child of the pipeline. -/
theorem executepipes_fork_failure_or_background_job :
    executepipes forkFailOracle [["ls"], ["wc"]] false demoProc =
      Except.ok
        { parent :=
            { fdt := [(4, File.pipeWrite 0), (3, File.pipeRead 0), (0, File.terminal),
                      (1, File.terminal), (2, File.terminal)],
              trace := [Sys.pipe 0 (some (3, 4)), Sys.fork (some 101), Sys.fork none,
                        Sys.perror "fork"] },
          children :=
            [{ fdt := [(1, File.pipeWrite 0), (0, File.terminal), (2, File.terminal)],
               trace := [Sys.dup2 4 1, Sys.close 3, Sys.close 4,
                         Sys.execvp (some "ls") ["ls"]] }] } ∧
    ∃ w, executepipes demoOracle [["ls"], ["wc"]] false demoProc = Except.ok w ∧
      w.parent.trace =
        [Sys.pipe 0 (some (3, 4)), Sys.fork (some 101), Sys.fork (some 102),
         Sys.close 3, Sys.close 4, Sys.wait, Sys.wait] ∧
      replay
          [Tick.run 0, Tick.run 0, Tick.run 0, Tick.run 0, Tick.run 0,
           Tick.childExit 7, Tick.run 0, Tick.childExit 101, Tick.run 0]
          w.parent.trace { running := [7], zombies := [], exits := [], results := [] } =
        ([], { running := [102], zombies := [], exits := [7, 101],
               results := [some 7, some 101] }) :=
  ⟨rfl, _, rfl, by decide, by decide⟩

/-- C3, amended: when every `pipe` and `fork` succeeds, a pipeline of `N`
commands creates `N` processes by `N` successful forks.  In the foreground,
when the shell has no other child, whatever the order in which the children
terminate, the handler of `SIGCHLD` runs and the shell proceeds: once control
has returned, no child runs any more, none is left to be reaped, and the
terminations that have happened are exactly those of the `N` children; and
control does return in the schedule in which the shell runs up to its waits,
the children terminate and the shell runs on.  In the background it performs
no wait. -/
theorem executepipes_waits_for_children (os : Oracle) (commands : List (List String))
    (background : Bool) (p : Proc)
    (hpipe : ∀ k, k < commands.length - 1 → os.pipeOk k = true)
    (hfork : ∀ i, i < commands.length → (os.forkPid i).isSome = true) :
    ∃ (w : World) (new : List Sys),
      executepipes os commands background p = Except.ok w ∧
      w.parent.trace = p.trace ++ new ∧
      w.children.length = commands.length ∧
      new.countP isFork = commands.length ∧
      (forkPids new).length = commands.length ∧
      (background = false →
        (∀ ticks k, replay ticks new noKids = ([], k) →
          k.running = [] ∧ k.zombies = [] ∧ k.exits.Perm (forkPids new)) ∧
        (∃ k, replay (calmSchedule (new.length - commands.length) (forkPids new)
          commands.length) new noKids = ([], k))) ∧
      (background = true → ∀ e, e ∈ new → isWait e = false) := by
  by_cases hN : commands.length = 0
  · have hfg := replay_foreground [] 0 (by simp) rfl
    refine ⟨{ parent := p, children := [] }, [], ?_, by simp, by simp [hN], by simp [hN],
      by simp [hN, forkPids], ?_, ?_⟩
    · unfold executepipes
      simp [hN]
    · intro _
      simpa [hN, forkPids] using hfg
    · intro _ e he
      simp at he
  · have hN1 : 1 ≤ commands.length := by omega
    have hw := executepipes_ok os commands background p hN1 hpipe hfork
    have hpre : ∀ e, e ∈ pipeEvents 0 (pipePairs (commands.length - 1) 0 p.fdt) ++
        forkEvents os commands.length 0 ++
        (pairFds (pipePairs (commands.length - 1) 0 p.fdt)).map Sys.close →
        isWait e = false := by
      intro e he
      simp only [List.mem_append, List.mem_map] at he
      rcases he with (he | he) | ⟨fd, _, he⟩
      · obtain ⟨k, pr, h⟩ := pipeEvents_only_pipes _ _ _ he
        rw [h]; rfl
      · obtain ⟨res, h⟩ := forkEvents_only_forks _ _ _ _ he
        rw [h]; rfl
      · rw [← he]; rfl
    have hcpre : (pipeEvents 0 (pipePairs (commands.length - 1) 0 p.fdt) ++
        forkEvents os commands.length 0 ++
        (pairFds (pipePairs (commands.length - 1) 0 p.fdt)).map Sys.close).countP isFork
        = commands.length := by
      simp only [List.countP_append]
      have h1 : (pipeEvents 0 (pipePairs (commands.length - 1) 0 p.fdt)).countP isFork = 0 := by
        rw [List.countP_eq_zero]
        intro e he
        obtain ⟨k, pr, h⟩ := pipeEvents_only_pipes _ _ _ he
        rw [h]; simp [isFork]
      have h2 : (forkEvents os commands.length 0).countP isFork = commands.length := by
        have h3 : (forkEvents os commands.length 0).countP isFork
            = (forkEvents os commands.length 0).length := by
          rw [List.countP_eq_length]
          intro e he
          obtain ⟨pid, h⟩ := forkEvents_success os _ _ e (fun k _ h2 => hfork k (by omega)) he
          rw [h]; rfl
        rw [h3, forkEvents_length]
      have h3 : ((pairFds (pipePairs (commands.length - 1) 0 p.fdt)).map Sys.close).countP
          isFork = 0 := by
        rw [List.countP_eq_zero]
        intro e he
        obtain ⟨fd, _, h⟩ := List.mem_map.mp he
        rw [← h]; simp [isFork]
      rw [h1, h2, h3]
      omega
    have hcwait : (waitEvents background commands.length).countP isFork = 0 := by
      rw [List.countP_eq_zero]
      intro e he
      rcases waitEvents_mem _ _ _ he with h | h <;> (rw [h]; simp [isFork])
    have hcount : (pipelineTrace os commands.length background p.fdt).countP isFork
        = commands.length := by
      unfold pipelineTrace
      rw [List.countP_append, hcpre, hcwait]
      omega
    refine ⟨_, pipelineTrace os commands.length background p.fdt, hw, rfl,
      pipelineChildren_length _ _ _, hcount, ?_, ?_, ?_⟩
    · rw [forkPids_length, hcount]
    · intro hb
      have hshape : pipelineTrace os commands.length background p.fdt =
          (pipeEvents 0 (pipePairs (commands.length - 1) 0 p.fdt) ++
            forkEvents os commands.length 0 ++
            (pairFds (pipePairs (commands.length - 1) 0 p.fdt)).map Sys.close) ++
          List.replicate commands.length Sys.wait := by
        unfold pipelineTrace waitEvents
        simp [hb]
      have hfp : (forkPids (pipeEvents 0 (pipePairs (commands.length - 1) 0 p.fdt) ++
          forkEvents os commands.length 0 ++
          (pairFds (pipePairs (commands.length - 1) 0 p.fdt)).map Sys.close)).length
          = commands.length := by
        rw [forkPids_length, hcpre]
      have hfg := replay_foreground _ commands.length hpre hfp
      rw [hshape]
      refine ⟨hfg.1, ?_⟩
      have hlen : ((pipeEvents 0 (pipePairs (commands.length - 1) 0 p.fdt) ++
            forkEvents os commands.length 0 ++
            (pairFds (pipePairs (commands.length - 1) 0 p.fdt)).map Sys.close) ++
          List.replicate commands.length Sys.wait).length - commands.length
          = (pipeEvents 0 (pipePairs (commands.length - 1) 0 p.fdt) ++
            forkEvents os commands.length 0 ++
            (pairFds (pipePairs (commands.length - 1) 0 p.fdt)).map Sys.close).length := by
        rw [List.length_append, List.length_replicate]
        omega
      rw [hlen, forkPids_append, forkPids_replicate_wait, List.append_nil]
      exact hfg.2
    · intro hb e he
      unfold pipelineTrace waitEvents at he
      simp only [hb, if_true] at he
      rw [List.mem_append] at he
      rcases he with he | he
      · exact hpre e he
      · simp only [List.mem_singleton] at he
        rw [he]; rfl

/-- The amended C3 at `ls -l | grep x | wc` in the foreground: in the schedule
in which `wc` terminates first and the handler reaps it, then the two others
terminate, control returns with no child running. -/
theorem executepipes_waits_for_children_witness :
    (∀ k, k < demoPipeline.length - 1 → demoOracle.pipeOk k = true) ∧
    (∀ i, i < demoPipeline.length → (demoOracle.forkPid i).isSome = true) ∧
    ∃ (w : World) (new : List Sys),
      executepipes demoOracle demoPipeline false demoProc = Except.ok w ∧
      w.parent.trace = demoProc.trace ++ new ∧
      w.children.length = 3 ∧ forkPids new = [101, 102, 103] ∧
      (∀ ticks k, replay ticks new noKids = ([], k) →
        k.running = [] ∧ k.zombies = [] ∧ k.exits.Perm (forkPids new)) ∧
      (∃ k, replay (calmSchedule (new.length - 3) (forkPids new) 3) new noKids = ([], k)) ∧
      replay
          (List.replicate 9 (Tick.run 0) ++
            [Tick.childExit 103, Tick.signal, Tick.run 0, Tick.childExit 101,
             Tick.childExit 102, Tick.run 0, Tick.run 1, Tick.run 0])
          new noKids =
        ([], { running := [], zombies := [], exits := [103, 101, 102],
               results := [some 101, some 102, none] }) := by
  refine ⟨fun _ _ => rfl, fun _ _ => rfl, ?_⟩
  obtain ⟨w, new, h1, h2, h3, _, _, h5, _⟩ :=
    executepipes_waits_for_children demoOracle demoPipeline false demoProc
      (fun _ _ => rfl) (fun _ _ => rfl)
  have hw : executepipes demoOracle demoPipeline false demoProc = Except.ok
      { parent := { fdt := demoProc.fdt,
                    trace := [Sys.pipe 0 (some (3, 4)), Sys.pipe 1 (some (5, 6)),
                      Sys.fork (some 101), Sys.fork (some 102), Sys.fork (some 103),
                      Sys.close 3, Sys.close 4, Sys.close 5, Sys.close 6,
                      Sys.wait, Sys.wait, Sys.wait] },
        children := pipelineChildren demoOracle demoPipeline demoProc.fdt } := by
    rfl
  have hw2 : w = _ := Except.ok.inj (h1.symm.trans hw)
  have hnew : new = [Sys.pipe 0 (some (3, 4)), Sys.pipe 1 (some (5, 6)),
      Sys.fork (some 101), Sys.fork (some 102), Sys.fork (some 103),
      Sys.close 3, Sys.close 4, Sys.close 5, Sys.close 6,
      Sys.wait, Sys.wait, Sys.wait] := by
    rw [hw2] at h2
    simpa [demoProc] using h2.symm
  have h6 := h5 rfl
  refine ⟨w, new, h1, h2, h3, ?_, h6.1, h6.2, ?_⟩
  · rw [hnew]; rfl
  · rw [hnew]; decide

/-- C7 fails on the code: in `ls -l | grep x | wc`, when the first `pipe`
succeeds and the second fails, `executepipes` returns after `perror("pipe")`:
no child is created, but the two descriptors of the first pipe are never
closed and stay open in the shell. -/
theorem executepipes_pipe_failure_leaks :
    executepipes pipeFailOracle demoPipeline false demoProc =
      Except.ok
        { parent :=
            { fdt := [(4, File.pipeWrite 0), (3, File.pipeRead 0), (0, File.terminal),
                      (1, File.terminal), (2, File.terminal)],
              trace := [Sys.pipe 0 (some (3, 4)), Sys.pipe 1 none, Sys.perror "pipe"] },
          children := [] } := by
  rfl

/-! ## The scan of the arguments in the child of `executecommand` -/

theorem isRedirOp_iff (a : String) : isRedirOp a = true ↔ a = "<" ∨ a = ">" ∨ a = ">>" := by
  simp [isRedirOp, or_assoc]

theorem scanArgs_nil (os : Oracle) (p : Proc) (r : Redir) :
    scanArgs os [] p r = Scan.done p r := by
  simp [scanArgs]

theorem scanArgs_single (os : Oracle) (a : String) (p : Proc) (r : Redir) :
    scanArgs os [a] p r =
      if a = ">" then failWith (Sys.cerr "No output file\n") p
      else if a = ">>" then failWith (Sys.cerr "No output file\n") p
      else Scan.done p { r with filtered_args := r.filtered_args ++ [a] } := by
  simp [scanArgs]

theorem scanArgs_pair (os : Oracle) (a f : String) (more : List String) (p : Proc) (r : Redir) :
    scanArgs os (a :: f :: more) p r =
      if a = "<" then
        match sysOpen (os.openOk f OpenMode.readOnly) f OpenMode.readOnly p with
        | (none, p1) => failWith (Sys.perror "open input failed") p1
        | (some fd, p1) => scanArgs os more p1 { r with in_fd := some fd }
      else if a = ">" then
        match sysOpen (os.openOk f OpenMode.truncate) f OpenMode.truncate p with
        | (none, p1) => failWith (Sys.perror "open output failed") p1
        | (some fd, p1) => scanArgs os more p1 { r with out_fd := some fd }
      else if a = ">>" then
        match sysOpen (os.openOk f OpenMode.append) f OpenMode.append p with
        | (none, p1) => failWith (Sys.perror "open output failed") p1
        | (some fd, p1) => scanArgs os more p1 { r with out_fd := some fd }
      else scanArgs os (f :: more) p { r with filtered_args := r.filtered_args ++ [a] } := by
  rw [scanArgs]

theorem sysOpen_ok (name : String) (mode : OpenMode) (p : Proc) :
    sysOpen true name mode p =
      (some (lowestFree p.fdt),
        { fdt := (lowestFree p.fdt, File.path name mode) :: p.fdt,
          trace := p.trace ++ [Sys.openFile name mode (some (lowestFree p.fdt))] }) := by
  simp [sysOpen]

theorem scanArgs_no_operator (os : Oracle) : ∀ (args : List String) (p : Proc) (r : Redir),
    (∀ a, a ∈ args → isRedirOp a = false) →
    scanArgs os args p r = Scan.done p { r with filtered_args := r.filtered_args ++ args } := by
  intro args
  induction args with
  | nil => intro p r _; simp [scanArgs_nil]
  | cons a rest ih =>
    intro p r h
    have ha : isRedirOp a = false := h a (List.mem_cons_self a rest)
    have ha2 : ¬ (a = "<" ∨ a = ">" ∨ a = ">>") := by
      rw [← isRedirOp_iff, ha]; simp
    simp only [not_or] at ha2
    cases rest with
    | nil => simp [scanArgs_single, ha2.2.1, ha2.2.2]
    | cons f more =>
      rw [scanArgs_pair]
      simp only [ha2.1, ha2.2.1, ha2.2.2, if_false]
      rw [ih _ _ (fun b hb => h b (List.mem_cons_of_mem a hb))]
      simp

theorem scanArgs_filtered (os : Oracle) (hopen : ∀ f m, os.openOk f m = true) :
    ∀ (n : Nat) (args : List String) (p : Proc) (r : Redir), args.length ≤ n →
    operandsPresent args = true →
    ∃ p2 r2 ev, scanArgs os args p r = Scan.done p2 r2 ∧
      r2.filtered_args = r.filtered_args ++ specFilteredArgs args ∧
      p2.trace = p.trace ++ ev ∧ ∀ e, e ∈ ev → isExec e = false := by
  intro n
  induction n with
  | zero =>
    intro args p r hlen _
    have : args = [] := List.length_eq_zero.mp (by omega)
    subst this
    exact ⟨p, r, [], scanArgs_nil os p r, by simp [specFilteredArgs], by simp, by simp⟩
  | succ m ih =>
    intro args p r hlen hwf
    cases args with
    | nil => exact ⟨p, r, [], scanArgs_nil os p r, by simp [specFilteredArgs], by simp, by simp⟩
    | cons a rest =>
      cases rest with
      | nil =>
        have ha : isRedirOp a = false := by simpa [operandsPresent] using hwf
        have ha2 : ¬ (a = "<" ∨ a = ">" ∨ a = ">>") := by
          rw [← isRedirOp_iff, ha]; simp
        simp only [not_or] at ha2
        refine ⟨p, { r with filtered_args := r.filtered_args ++ [a] }, [], ?_, ?_,
          by simp, by simp⟩
        · rw [scanArgs_single]
          simp only [ha2.2.1, ha2.2.2, if_false]
        · simp [specFilteredArgs, ha]
      | cons f more =>
        have hlen2 : more.length ≤ m := by simp at hlen; omega
        have hlen3 : (f :: more).length ≤ m := by simp at hlen ⊢; omega
        rw [scanArgs_pair]
        by_cases h1 : a = "<"
        · have hop : isRedirOp a = true := (isRedirOp_iff a).mpr (Or.inl h1)
          have hwf2 : operandsPresent more = true := by
            simpa [operandsPresent, hop] using hwf
          simp only [h1, if_true, hopen, sysOpen_ok]
          obtain ⟨p2, r2, ev, e1, e2, e3, e4⟩ := ih more _ { r with in_fd := _ } hlen2 hwf2
          refine ⟨p2, r2, Sys.openFile f OpenMode.readOnly (some (lowestFree p.fdt)) :: ev,
            e1, ?_, ?_, ?_⟩
          · rw [e2]
            simp [specFilteredArgs, isRedirOp]
          · rw [e3]
            simp
          · intro e he
            rcases List.mem_cons.mp he with he | he
            · rw [he]; rfl
            · exact e4 e he
        · by_cases h2 : a = ">"
          · have hop : isRedirOp a = true := (isRedirOp_iff a).mpr (Or.inr (Or.inl h2))
            have hwf2 : operandsPresent more = true := by
              simpa [operandsPresent, hop] using hwf
            simp only [h1, h2, if_true, if_false, hopen, sysOpen_ok]
            obtain ⟨p2, r2, ev, e1, e2, e3, e4⟩ := ih more _ { r with out_fd := _ } hlen2 hwf2
            refine ⟨p2, r2, Sys.openFile f OpenMode.truncate (some (lowestFree p.fdt)) :: ev,
              ?_, ?_, ?_, ?_⟩
            · simpa using e1
            · rw [e2]
              simp [specFilteredArgs, isRedirOp]
            · rw [e3]
              simp
            · intro e he
              rcases List.mem_cons.mp he with he | he
              · rw [he]; rfl
              · exact e4 e he
          · by_cases h3 : a = ">>"
            · have hop : isRedirOp a = true := (isRedirOp_iff a).mpr (Or.inr (Or.inr h3))
              have hwf2 : operandsPresent more = true := by
                simpa [operandsPresent, hop] using hwf
              simp only [h1, h2, h3, if_true, if_false, hopen, sysOpen_ok]
              obtain ⟨p2, r2, ev, e1, e2, e3, e4⟩ := ih more _ { r with out_fd := _ } hlen2 hwf2
              refine ⟨p2, r2, Sys.openFile f OpenMode.append (some (lowestFree p.fdt)) :: ev,
                ?_, ?_, ?_, ?_⟩
              · simpa using e1
              · rw [e2]
                simp [specFilteredArgs, isRedirOp]
              · rw [e3]
                simp
              · intro e he
                rcases List.mem_cons.mp he with he | he
                · rw [he]; rfl
                · exact e4 e he
            · have hop : isRedirOp a = false := by
                cases hh : isRedirOp a with
                | false => rfl
                | true =>
                  rcases (isRedirOp_iff a).mp hh with h | h | h
                  · exact absurd h h1
                  · exact absurd h h2
                  · exact absurd h h3
              have hwf2 : operandsPresent (f :: more) = true := by
                simpa [operandsPresent, hop] using hwf
              simp only [h1, h2, h3, if_false]
              obtain ⟨p2, r2, ev, e1, e2, e3, e4⟩ :=
                ih (f :: more) p { r with filtered_args := r.filtered_args ++ [a] } hlen3 hwf2
              refine ⟨p2, r2, ev, e1, ?_, e3, e4⟩
              rw [e2]
              simp [specFilteredArgs, hop]

theorem getLast?_cons_of_some {α : Type} (a x : α) (l : List α) (h : l.getLast? = some x) :
    (a :: l).getLast? = some x := by
  cases l with
  | nil => simp at h
  | cons b rest => rw [List.getLast?_cons_cons]; exact h

theorem sysOpen_fail (name : String) (mode : OpenMode) (p : Proc) :
    sysOpen false name mode p = (none, p.emit (Sys.openFile name mode none)) := by
  simp [sysOpen]

theorem scanArgs_dangling (os : Oracle) :
    ∀ (n : Nat) (args : List String) (p : Proc) (r : Redir), args.length ≤ n →
    danglingOutput args = true →
    ∃ q ev, scanArgs os args p r = Scan.exited q ∧ q.trace = p.trace ++ ev ∧
      ev.getLast? = some (Sys.exit EXIT_FAILURE) ∧ (∀ e, e ∈ ev → isExec e = false) ∧
      ((∀ f m, os.openOk f m = true) → Sys.cerr "No output file\n" ∈ ev) := by
  intro n
  induction n with
  | zero =>
    intro args p r hlen hd
    have : args = [] := List.length_eq_zero.mp (by omega)
    subst this
    simp [danglingOutput] at hd
  | succ m ih =>
    intro args p r hlen hd
    cases args with
    | nil => simp [danglingOutput] at hd
    | cons a rest =>
      cases rest with
      | nil =>
        have ha : a = ">" ∨ a = ">>" := by simpa [danglingOutput] using hd
        refine ⟨(p.emit (Sys.cerr "No output file\n")).emit (Sys.exit EXIT_FAILURE),
          [Sys.cerr "No output file\n", Sys.exit EXIT_FAILURE], ?_, ?_, by simp, ?_, ?_⟩
        · rw [scanArgs_single]
          rcases ha with ha | ha
          · simp [ha, failWith]
          · simp [ha, failWith]
        · simp [Proc.emit]
        · intro e he
          simp only [List.mem_cons, List.mem_singleton, List.not_mem_nil, or_false] at he
          rcases he with he | he <;> (rw [he]; rfl)
        · intro _
          simp
      | cons f more =>
        have hlen2 : more.length ≤ m := by simp at hlen; omega
        have hlen3 : (f :: more).length ≤ m := by simp at hlen ⊢; omega
        rw [scanArgs_pair]
        by_cases h1 : a = "<"
        · have hop : isRedirOp a = true := (isRedirOp_iff a).mpr (Or.inl h1)
          have hd2 : danglingOutput more = true := by
            simpa [danglingOutput, hop] using hd
          simp only [h1, if_true]
          by_cases hok : os.openOk f OpenMode.readOnly = true
          · rw [hok, sysOpen_ok]
            simp only []
            obtain ⟨q, ev, e1, e2, e3, e4, e5⟩ := ih more
              { fdt := (lowestFree p.fdt, File.path f OpenMode.readOnly) :: p.fdt,
                trace := p.trace ++ [Sys.openFile f OpenMode.readOnly (some (lowestFree p.fdt))] }
              { r with in_fd := some (lowestFree p.fdt) } hlen2 hd2
            refine ⟨q, Sys.openFile f OpenMode.readOnly (some (lowestFree p.fdt)) :: ev, e1, ?_, ?_, ?_, ?_⟩
            · rw [e2]
              simp
            · exact getLast?_cons_of_some _ _ _ e3
            · intro e he
              rcases List.mem_cons.mp he with he | he
              · rw [he]; rfl
              · exact e4 e he
            · intro hall
              exact List.mem_cons_of_mem _ (e5 hall)
          · have hno : os.openOk f OpenMode.readOnly = false := by simpa using hok
            rw [hno, sysOpen_fail]
            simp only []
            refine ⟨_, [Sys.openFile f OpenMode.readOnly none, Sys.perror "open input failed",
              Sys.exit EXIT_FAILURE], rfl, ?_, by simp, ?_, ?_⟩
            · simp [Proc.emit]
            · intro e he
              simp only [List.mem_cons, List.mem_singleton, List.not_mem_nil, or_false] at he
              rcases he with he | he | he <;> (rw [he]; rfl)
            · intro hall
              rw [hall] at hno
              cases hno

        · by_cases h2 : a = ">"
          · have hop : isRedirOp a = true := (isRedirOp_iff a).mpr (Or.inr (Or.inl h2))
            have hd2 : danglingOutput more = true := by
              simpa [danglingOutput, hop] using hd
            simp only [h1, h2, if_true, if_false]
            by_cases hok : os.openOk f OpenMode.truncate = true
            · rw [hok, sysOpen_ok]
              simp only []
              obtain ⟨q, ev, e1, e2, e3, e4, e5⟩ := ih more
                { fdt := (lowestFree p.fdt, File.path f OpenMode.truncate) :: p.fdt,
                  trace := p.trace ++ [Sys.openFile f OpenMode.truncate (some (lowestFree p.fdt))] }
                { r with out_fd := some (lowestFree p.fdt) } hlen2 hd2
              refine ⟨q, Sys.openFile f OpenMode.truncate (some (lowestFree p.fdt)) :: ev, e1, ?_, ?_, ?_, ?_⟩
              · rw [e2]
                simp
              · exact getLast?_cons_of_some _ _ _ e3
              · intro e he
                rcases List.mem_cons.mp he with he | he
                · rw [he]; rfl
                · exact e4 e he
              · intro hall
                exact List.mem_cons_of_mem _ (e5 hall)
            · have hno : os.openOk f OpenMode.truncate = false := by simpa using hok
              rw [hno, sysOpen_fail]
              simp only []
              refine ⟨_, [Sys.openFile f OpenMode.truncate none, Sys.perror "open output failed",
                Sys.exit EXIT_FAILURE], rfl, ?_, by simp, ?_, ?_⟩
              · simp [Proc.emit]
              · intro e he
                simp only [List.mem_cons, List.mem_singleton, List.not_mem_nil, or_false] at he
                rcases he with he | he | he <;> (rw [he]; rfl)
              · intro hall
                rw [hall] at hno
                cases hno

          · by_cases h3 : a = ">>"
            · have hop : isRedirOp a = true := (isRedirOp_iff a).mpr (Or.inr (Or.inr h3))
              have hd2 : danglingOutput more = true := by
                simpa [danglingOutput, hop] using hd
              simp only [h1, h2, h3, if_true, if_false]
              by_cases hok : os.openOk f OpenMode.append = true
              · rw [hok, sysOpen_ok]
                simp only []
                obtain ⟨q, ev, e1, e2, e3, e4, e5⟩ := ih more
                  { fdt := (lowestFree p.fdt, File.path f OpenMode.append) :: p.fdt,
                    trace := p.trace ++ [Sys.openFile f OpenMode.append (some (lowestFree p.fdt))] }
                  { r with out_fd := some (lowestFree p.fdt) } hlen2 hd2
                refine ⟨q, Sys.openFile f OpenMode.append (some (lowestFree p.fdt)) :: ev, e1, ?_, ?_, ?_, ?_⟩
                · rw [e2]
                  simp
                · exact getLast?_cons_of_some _ _ _ e3
                · intro e he
                  rcases List.mem_cons.mp he with he | he
                  · rw [he]; rfl
                  · exact e4 e he
                · intro hall
                  exact List.mem_cons_of_mem _ (e5 hall)
              · have hno : os.openOk f OpenMode.append = false := by simpa using hok
                rw [hno, sysOpen_fail]
                simp only []
                refine ⟨_, [Sys.openFile f OpenMode.append none, Sys.perror "open output failed",
                  Sys.exit EXIT_FAILURE], rfl, ?_, by simp, ?_, ?_⟩
                · simp [Proc.emit]
                · intro e he
                  simp only [List.mem_cons, List.mem_singleton, List.not_mem_nil, or_false] at he
                  rcases he with he | he | he <;> (rw [he]; rfl)
                · intro hall
                  rw [hall] at hno
                  cases hno

            · have hop : isRedirOp a = false := by
                cases hh : isRedirOp a with
                | false => rfl
                | true =>
                  rcases (isRedirOp_iff a).mp hh with h | h | h
                  · exact absurd h h1
                  · exact absurd h h2
                  · exact absurd h h3
              have hd2 : danglingOutput (f :: more) = true := by
                simpa [danglingOutput, hop] using hd
              simp only [h1, h2, h3, if_false]
              exact ih (f :: more) p { r with filtered_args := r.filtered_args ++ [a] } hlen3 hd2

/-! ## The child and the parent of `executecommand` -/

theorem applyRedirect_trace (fd : Option Nat) (target : Nat) (p : Proc) :
    (applyRedirect fd target p).trace = p.trace ++ redirEvents fd target := by
  cases fd with
  | none => simp [applyRedirect, redirEvents]
  | some n => simp [applyRedirect, redirEvents, sysClose, sysDup2]

theorem redirEvents_not_exec (fd : Option Nat) (target : Nat) (e : Sys)
    (h : e ∈ redirEvents fd target) : isExec e = false := by
  cases fd with
  | none => simp [redirEvents] at h
  | some n =>
    simp only [redirEvents, List.mem_cons, List.mem_singleton, List.not_mem_nil, or_false] at h
    rcases h with h | h <;> (rw [h]; rfl)

theorem commandChild_done (os : Oracle) (args : List String) (c p2 : Proc) (r2 : Redir)
    (h : scanArgs os args c { in_fd := none, out_fd := none, filtered_args := [] }
      = Scan.done p2 r2) :
    (commandChild os args c).trace =
      p2.trace ++ redirEvents r2.in_fd STDIN_FILENO ++ redirEvents r2.out_fd STDOUT_FILENO ++
        execEvents os "execvp failed" r2.filtered_args := by
  unfold commandChild
  rw [h]
  simp only [sysExecvp_trace, applyRedirect_trace]

theorem commandChild_exited (os : Oracle) (args : List String) (c q : Proc)
    (h : scanArgs os args c { in_fd := none, out_fd := none, filtered_args := [] }
      = Scan.exited q) :
    commandChild os args c = q := by
  unfold commandChild
  rw [h]

theorem mem_execEvents (os : Oracle) (msg : String) (argv2 : List String)
    (file : Option String) (argv : List String) :
    Sys.execvp file argv ∈ execEvents os msg argv2 ↔ (argv = argv2 ∧ file = argv.head?) := by
  unfold execEvents
  by_cases h : os.execOk argv2 = true
  · simp only [h, if_true, List.mem_singleton, Sys.execvp.injEq]
    constructor
    · rintro ⟨h1, h2⟩
      exact ⟨h2, by rw [h1, h2]⟩
    · rintro ⟨h1, h2⟩
      exact ⟨by rw [h2, h1], h1⟩
  · simp only [h, if_false, List.mem_cons, Sys.execvp.injEq, List.mem_singleton,
      List.not_mem_nil, or_false, reduceCtorEq]
    constructor
    · rintro ⟨h1, h2⟩
      exact ⟨h2, by rw [h1, h2]⟩
    · rintro ⟨h1, h2⟩
      exact ⟨by rw [h2, h1], h1⟩

theorem countP_isExec_execEvents (os : Oracle) (msg : String) (argv : List String) :
    (execEvents os msg argv).countP isExec = 1 := by
  unfold execEvents
  by_cases h : os.execOk argv = true
  · simp [h, isExec]
  · simp [h, isExec, List.countP_cons]

theorem executecommand_children (os : Oracle) (args : List String) (p : Proc) (pid : Nat)
    (hne : args ≠ []) (hfork : os.forkPid 0 = some pid) :
    (executecommand os args p).children =
      [commandChild os (stripAmp args) { fdt := p.fdt, trace := [] }] := by
  unfold executecommand
  simp only [hne, if_false, hfork]
  split <;> rfl

theorem executecommand_parent (os : Oracle) (args : List String) (p : Proc) (pid : Nat)
    (hne : args ≠ []) (hfork : os.forkPid 0 = some pid) :
    (executecommand os args p).parent =
      (p.emit (Sys.fork (some (pid + 1)))).emit
        (if endsWithAmp args = true then
          Sys.cout ("[Background job started] PID: " ++ toString (pid + 1) ++ "\n")
        else Sys.waitpid (pid + 1)) := by
  unfold executecommand
  simp only [hne, if_false, hfork]
  split <;> rfl

/-! ## The claims about `executecommand` -/

/-- C4, as stated, fails: for `cat <` every file opens (none is opened), and
the program receives the argument vector `cat <`, with the operator in it,
where the claim has the operator removed; and for `echo hi >` every file opens
(none is opened) and no argument vector is passed at all, where the claim has
`echo hi` passed. -/
theorem executecommand_keeps_trailing_input_operator :
    ((executecommand demoOracle ["cat", "<"] demoProc).children =
        [{ fdt := demoProc.fdt, trace := [Sys.execvp (some "cat") ["cat", "<"]] }] ∧
      specFilteredArgs (stripAmp ["cat", "<"]) = ["cat"]) ∧
    ((executecommand demoOracle ["echo", "hi", ">"] demoProc).children =
        [{ fdt := demoProc.fdt, trace := [Sys.cerr "No output file\n", Sys.exit 1] }] ∧
      specFilteredArgs (stripAmp ["echo", "hi", ">"]) = ["echo", "hi"]) := by
  decide

/-- C4, amended: when `fork` succeeds, every file opens and every redirection
operator met by the scan has a token after it, the child calls `execvp` exactly
once, with the program name `argv[0]` and the argument vector that is the
argument list (after removal of a trailing `&`) with every redirection
operator and the token following it removed. -/
theorem executecommand_argv (os : Oracle) (args : List String) (p : Proc) (pid : Nat)
    (hne : args ≠ []) (hfork : os.forkPid 0 = some pid)
    (hopen : ∀ f m, os.openOk f m = true)
    (hwf : operandsPresent (stripAmp args) = true) :
    ∃ c, (executecommand os args p).children = [c] ∧
      (∀ file argv, Sys.execvp file argv ∈ c.trace ↔
        (argv = specFilteredArgs (stripAmp args) ∧ file = argv.head?)) ∧
      c.trace.countP isExec = 1 := by
  obtain ⟨p2, r2, ev, e1, e2, e3, e4⟩ :=
    scanArgs_filtered os hopen (stripAmp args).length (stripAmp args)
      { fdt := p.fdt, trace := [] } { in_fd := none, out_fd := none, filtered_args := [] }
      (Nat.le_refl _) hwf
  simp only [List.nil_append] at e2 e3
  have htrace := commandChild_done os (stripAmp args) _ p2 r2 e1
  rw [e2, e3] at htrace
  have hpre : ∀ e, e ∈ ev ++ redirEvents r2.in_fd STDIN_FILENO ++
      redirEvents r2.out_fd STDOUT_FILENO → isExec e = false := by
    intro e he
    simp only [List.mem_append] at he
    rcases he with (he | he) | he
    · exact e4 e he
    · exact redirEvents_not_exec _ _ _ he
    · exact redirEvents_not_exec _ _ _ he
  refine ⟨_, executecommand_children os args p pid hne hfork, ?_, ?_⟩
  · intro file argv
    rw [htrace, List.mem_append, mem_execEvents]
    constructor
    · rintro (h | h)
      · have := hpre _ h
        simp [isExec] at this
      · exact h
    · intro h
      exact Or.inr h
  · rw [htrace, List.countP_append, countP_isExec_execEvents]
    have h0 : (ev ++ redirEvents r2.in_fd STDIN_FILENO ++
        redirEvents r2.out_fd STDOUT_FILENO).countP isExec = 0 := by
      rw [List.countP_eq_zero]
      intro e he
      rw [hpre e he]
      simp
    rw [h0]

/-- The amended C4 at `sort < in > out &`: the program receives `sort`. -/
theorem executecommand_argv_witness :
    ["sort", "<", "in", ">", "out", "&"] ≠ [] ∧ demoOracle.forkPid 0 = some 100 ∧
    (∀ f m, demoOracle.openOk f m = true) ∧
    operandsPresent (stripAmp ["sort", "<", "in", ">", "out", "&"]) = true ∧
    ∃ c, (executecommand demoOracle ["sort", "<", "in", ">", "out", "&"] demoProc).children
        = [c] ∧
      (∀ file argv, Sys.execvp file argv ∈ c.trace ↔
        (argv = specFilteredArgs (stripAmp ["sort", "<", "in", ">", "out", "&"]) ∧
          file = argv.head?)) ∧
      c.trace.countP isExec = 1 :=
  ⟨by decide, rfl, fun _ _ => rfl, by decide,
    executecommand_argv demoOracle ["sort", "<", "in", ">", "out", "&"] demoProc 100
      (by decide) rfl (fun _ _ => rfl) (by decide)⟩

/-- C5 fails on the code for the operator `<`: for `cat <` no error is reported,
and the child replaces its program image with `cat`, the operator being passed
on as an argument. -/
theorem executecommand_trailing_input_operator_runs :
    executecommand demoOracle ["cat", "<"] demoProc =
      { parent := { fdt := demoProc.fdt,
                    trace := [Sys.fork (some 101), Sys.waitpid 101] },
        children := [{ fdt := demoProc.fdt,
                       trace := [Sys.execvp (some "cat") ["cat", "<"]] }] } := by
  decide

/-- C6, as stated, fails: for `echo hi >` the shell forks, and it is the
child that reports `No output file` and exits. -/
theorem executecommand_forks_before_parsing :
    executecommand demoOracle ["echo", "hi", ">"] demoProc =
      { parent := { fdt := demoProc.fdt,
                    trace := [Sys.fork (some 101), Sys.waitpid 101] },
        children := [{ fdt := demoProc.fdt,
                       trace := [Sys.cerr "No output file\n", Sys.exit 1] }] } := by
  decide

/-- C6, amended: for a command whose scan ends on `>` or `>>` without a
filename, `executecommand` forks, and when the fork succeeds one child exists;
that child never calls `execvp`, its last call is `_exit(EXIT_FAILURE)`, and
when every file before opens, it has written `No output file` to the error
stream. -/
theorem executecommand_dangling_output (os : Oracle) (args : List String) (p : Proc)
    (pid : Nat) (hne : args ≠ []) (hfork : os.forkPid 0 = some pid)
    (hd : danglingOutput (stripAmp args) = true) :
    ∃ c, (executecommand os args p).children = [c] ∧
      Sys.fork (some (pid + 1)) ∈ (executecommand os args p).parent.trace ∧
      (∀ e, e ∈ c.trace → isExec e = false) ∧
      c.trace.getLast? = some (Sys.exit EXIT_FAILURE) ∧
      ((∀ f m, os.openOk f m = true) → Sys.cerr "No output file\n" ∈ c.trace) := by
  obtain ⟨q, ev, e1, e2, e3, e4, e5⟩ :=
    scanArgs_dangling os (stripAmp args).length (stripAmp args)
      { fdt := p.fdt, trace := [] } { in_fd := none, out_fd := none, filtered_args := [] }
      (Nat.le_refl _) hd
  simp only [List.nil_append] at e2
  have hc := commandChild_exited os (stripAmp args) _ q e1
  refine ⟨_, executecommand_children os args p pid hne hfork, ?_, ?_, ?_, ?_⟩
  · rw [executecommand_parent os args p pid hne hfork]
    simp [Proc.emit]
  · rw [hc, e2]
    exact e4
  · rw [hc, e2]
    exact e3
  · rw [hc, e2]
    exact e5

/-- The amended C6 at `echo hi >`. -/
theorem executecommand_dangling_output_witness :
    ["echo", "hi", ">"] ≠ [] ∧ demoOracle.forkPid 0 = some 100 ∧
    danglingOutput (stripAmp ["echo", "hi", ">"]) = true ∧
    ∃ c, (executecommand demoOracle ["echo", "hi", ">"] demoProc).children = [c] ∧
      Sys.fork (some (100 + 1)) ∈
        (executecommand demoOracle ["echo", "hi", ">"] demoProc).parent.trace ∧
      (∀ e, e ∈ c.trace → isExec e = false) ∧
      c.trace.getLast? = some (Sys.exit EXIT_FAILURE) ∧
      ((∀ f m, demoOracle.openOk f m = true) → Sys.cerr "No output file\n" ∈ c.trace) :=
  ⟨by decide, rfl, by decide,
    executecommand_dangling_output demoOracle ["echo", "hi", ">"] demoProc 100
      (by decide) rfl (by decide)⟩

/-- C10 fails on the code: the line `&` is dispatched to `executecommand`,
which removes the `&` after its emptiness test, forks, and calls `execvp` with
a null program name and an argument vector that holds only the terminator;
the call fails and the child exits. -/
theorem runLine_ampersand_only :
    dispatch "&" = Dispatch.command ["&"] ∧
    runLine demoOracle "&" demoProc =
      Except.ok
        { parent := { fdt := demoProc.fdt,
                      trace := [Sys.fork (some 101),
                                Sys.cout "[Background job started] PID: 101\n"] },
          children := [{ fdt := demoProc.fdt,
                         trace := [Sys.execvp none [], Sys.perror "execvp failed",
                                   Sys.exit 1] }] } := by
  exact ⟨by decide, by rfl⟩

/-! ## A pipeline of one stage -/

theorem executepipes_one_fork_fail (os : Oracle) (c : List String) (b : Bool) (p : Proc)
    (hf : os.forkPid 0 = none) :
    executepipes os [c] b p = Except.ok
      { parent := (p.emit (Sys.fork none)).emit (Sys.perror "fork"), children := [] } := by
  simp [executepipes, pipeLoop, forkLoop, hf]

theorem executepipes_one (os : Oracle) (c : List String) (b : Bool) (p : Proc) (pid : Nat)
    (hf : os.forkPid 0 = some pid) :
    executepipes os [c] b p = Except.ok
      { parent := (p.emit (Sys.fork (some (pid + 1)))).emit
          (if b = true then Sys.cout "[Background pipeline started]\n" else Sys.wait),
        children := [sysExecvp os "execvp" c { fdt := p.fdt, trace := [] }] } := by
  cases b <;>
    simp [executepipes, pipeLoop, forkLoop, hf, pipeChild, closeLoop, waitLoop, Proc.emit]

theorem execCalls_execEvents (os : Oracle) (msg : String) (argv : List String) :
    execCalls (execEvents os msg argv) = [(argv.head?, argv)] := by
  unfold execEvents
  by_cases h : os.execOk argv = true
  · simp [h, execCalls]
  · simp [h, execCalls]

theorem endsWithAmp_concat (c : List String) : endsWithAmp (c ++ ["&"]) = true := by
  simp [endsWithAmp, List.getLast?_concat]

theorem stripAmp_concat (c : List String) : stripAmp (c ++ ["&"]) = c := by
  simp [stripAmp, endsWithAmp_concat, List.dropLast_concat]

theorem stripAmp_of_not (c : List String) (h : endsWithAmp c = false) : stripAmp c = c := by
  simp [stripAmp, h]

theorem commandChild_plain (os : Oracle) (c : List String) (t : FdTable)
    (hops : ∀ a, a ∈ c → isRedirOp a = false) :
    commandChild os c { fdt := t, trace := [] } =
      sysExecvp os "execvp failed" c { fdt := t, trace := [] } := by
  unfold commandChild
  rw [scanArgs_no_operator os c _ _ hops]
  simp [applyRedirect]

/-- C9, as stated, fails: for the command `echo hi > f` the one-stage
pipeline passes the four tokens to the program and leaves standard output on
the terminal, while `executecommand` passes `echo hi` and binds standard output
to the file `f`. -/
theorem single_stage_ignores_redirection :
    ∃ w, executepipes demoOracle [["echo", "hi", ">", "f"]] false demoProc = Except.ok w ∧
      (observe w).argvs = [[(some "echo", ["echo", "hi", ">", "f"])]] ∧
      (observe w).streams = [(some File.terminal, some File.terminal)] ∧
      (observe (executecommand demoOracle ["echo", "hi", ">", "f"] demoProc)).argvs
        = [[(some "echo", ["echo", "hi"])]] ∧
      (observe (executecommand demoOracle ["echo", "hi", ">", "f"] demoProc)).streams
        = [(some File.terminal, some (File.path "f" OpenMode.truncate))] :=
  ⟨_, rfl, by decide, by decide, by decide, by decide⟩

/-- C9, amended: for a non-empty command `c` without a redirection operator
among its tokens, which in the foreground case does not end in `&`,
`executepipes` on `[c]` allocates no pipe and leaves the descriptors of the
shell as they were, and it agrees with `executecommand` on `c` (with `&`
appended in the background case) in the number of processes created, in what
standard input and output of the child are bound to, in the `execvp` call of
the child, and in the number of blocking waits of the parent. -/
theorem executepipes_single_stage (os : Oracle) (c : List String) (b : Bool) (p : Proc)
    (hne : c ≠ []) (hops : ∀ a, a ∈ c → isRedirOp a = false)
    (hamp : b = false → endsWithAmp c = false) :
    ∃ (w : World) (new : List Sys),
      executepipes os [c] b p = Except.ok w ∧
      w.parent.trace = p.trace ++ new ∧ (∀ k res, Sys.pipe k res ∉ new) ∧
      w.parent.fdt = p.fdt ∧
      observe w = observe (executecommand os (if b = true then c ++ ["&"] else c) p) := by
  have hargs : (if b = true then c ++ ["&"] else c) ≠ [] := by
    cases b <;> simp [hne]
  have hstrip : stripAmp (if b = true then c ++ ["&"] else c) = c := by
    cases b with
    | true => simp [stripAmp_concat]
    | false => simp [stripAmp_of_not c (hamp rfl)]
  have hends : endsWithAmp (if b = true then c ++ ["&"] else c) = b := by
    cases b with
    | true => simp [endsWithAmp_concat]
    | false => simp [hamp rfl]
  cases hf : os.forkPid 0 with
  | none =>
    refine ⟨_, [Sys.fork none, Sys.perror "fork"], executepipes_one_fork_fail os c b p hf,
      by simp [Proc.emit], by simp, rfl, ?_⟩
    unfold executecommand
    simp only [hargs, if_false, hf]
    simp [observe, Proc.emit, isWait, List.countP_cons]
  | some pid =>
    refine ⟨_, [Sys.fork (some (pid + 1)),
        if b = true then Sys.cout "[Background pipeline started]\n" else Sys.wait],
      executepipes_one os c b p pid hf, by simp [Proc.emit], ?_, rfl, ?_⟩
    · intro k res
      cases b <;> simp
    · have hch := executecommand_children os _ p pid hargs hf
      have hpar := executecommand_parent os _ p pid hargs hf
      rw [hstrip, commandChild_plain os c p.fdt hops] at hch
      rw [hends] at hpar
      unfold observe
      rw [hch, hpar]
      cases b <;>
        simp [Proc.emit, isWait, List.countP_cons, sysExecvp_trace, sysExecvp_fdt,
          execCalls_execEvents]

/-- The amended C9 at `ls -l` in the background. -/
theorem executepipes_single_stage_witness :
    ["ls", "-l"] ≠ [] ∧ (∀ a, a ∈ ["ls", "-l"] → isRedirOp a = false) ∧
    (true = false → endsWithAmp ["ls", "-l"] = false) ∧
    ∃ (w : World) (new : List Sys),
      executepipes demoOracle [["ls", "-l"]] true demoProc = Except.ok w ∧
      w.parent.trace = demoProc.trace ++ new ∧ (∀ k res, Sys.pipe k res ∉ new) ∧
      w.parent.fdt = demoProc.fdt ∧
      observe w = observe (executecommand demoOracle
        (if true = true then ["ls", "-l"] ++ ["&"] else ["ls", "-l"]) demoProc) :=
  ⟨by decide, by decide, by decide,
    executepipes_single_stage demoOracle ["ls", "-l"] true demoProc
      (by decide) (by decide) (by decide)⟩

/-! ## The read loop -/

theorem stripAmp_nil : stripAmp [] = [] := by
  simp [stripAmp, endsWithAmp]

theorem endsWithAmp_nil : endsWithAmp [] = false := by
  simp [endsWithAmp]

theorem segmentLoop_eq : ∀ (segs : List (List Char)) (cmds : List (List String)) (bg : Bool),
    segmentLoop segs cmds bg =
      (cmds ++ (segs.map (fun s => stripAmp (segTokens s))).filter (fun c => decide (c ≠ [])),
        bg || segs.any (fun s => endsWithAmp (segTokens s))) := by
  intro segs
  induction segs with
  | nil => intro cmds bg; simp [segmentLoop]
  | cons seg rest ih =>
    intro cmds bg
    have hseg : parseInput (String.mk (trimSegment seg)) = segTokens seg := rfl
    unfold segmentLoop
    simp only [hseg]
    by_cases h : segTokens seg = []
    · simp [h, ih, stripAmp_nil, endsWithAmp_nil]
    · by_cases h2 : stripAmp (segTokens seg) = []
      · by_cases h3 : endsWithAmp (segTokens seg) = true
        · simp [h, h2, h3, ih]
        · simp [h, h2, h3, ih]
      · by_cases h3 : endsWithAmp (segTokens seg) = true
        · simp [h, h2, h3, ih]
        · simp [h, h2, h3, ih]

theorem dispatch_pipes (input : String) (commands : List (List String)) (background : Bool)
    (h : dispatch input = Dispatch.pipes commands background) :
    (commands, background) = segmentLoop (splitSegments input.data []) [] false := by
  unfold dispatch at h
  split at h
  · cases h
  · simp only [] at h
    split at h
    · cases h
    · split at h
      · cases h
      · split at h
        · cases h
        · split at h
          · cases h
          · split at h
            · split at h
              · cases h
                rfl
              · cases h
            · cases h

theorem dispatch_pipes_nonempty (input : String) (commands : List (List String))
    (background : Bool) (h : dispatch input = Dispatch.pipes commands background) :
    ∀ c, c ∈ commands → c ≠ [] := by
  have h1 := dispatch_pipes input commands background h
  rw [segmentLoop_eq] at h1
  have h2 : commands = ((splitSegments input.data []).map
      (fun s => stripAmp (segTokens s))).filter (fun c => decide (c ≠ [])) := by
    simpa using congrArg Prod.fst h1
  intro c hc
  rw [h2, List.mem_filter] at hc
  simpa using hc.2

/-- C8 fails on the code: the final token of the line `sleep 5 & | cat` is
`cat`, yet the loop over the segments in `main` takes the `&` that ends the
first segment as the background marker and removes it, and `executepipes` runs
the pipeline in the background: it reports the start and performs no wait. -/
theorem runLine_background_marker_inside_pipeline :
    (parseInput "sleep 5 & | cat").getLast? = some "cat" ∧
    dispatch "sleep 5 & | cat" = Dispatch.pipes [["sleep", "5"], ["cat"]] true ∧
    runLine demoOracle "sleep 5 & | cat" demoProc =
      Except.ok
        { parent :=
            { fdt := demoProc.fdt,
              trace := [Sys.pipe 0 (some (3, 4)), Sys.fork (some 101), Sys.fork (some 102),
                        Sys.close 3, Sys.close 4,
                        Sys.cout "[Background pipeline started]\n"] },
          children :=
            [{ fdt := [(1, File.pipeWrite 0), (0, File.terminal), (2, File.terminal)],
               trace := [Sys.dup2 4 1, Sys.close 3, Sys.close 4,
                         Sys.execvp (some "sleep") ["sleep", "5"]] },
             { fdt := [(0, File.pipeRead 0), (1, File.terminal), (2, File.terminal)],
               trace := [Sys.dup2 3 0, Sys.close 3, Sys.close 4,
                         Sys.execvp (some "cat") ["cat"]] }] } := by
  exact ⟨by decide, by decide, by rfl⟩

end MiniShell
